import Mathlib

/-!
# MapleSeed main window (`src/mapleseed.cpp`)

A shallow embedding of the slots of `MapleSeed`: the window is a record of the state the
slots read back (list view, configured base directory, game library) together with the
log of the calls they make on their collaborators (status bar, message boxes, progress
bar, `Decrypt`, `TitleInfo`), in program order.  What a dialog returns is an argument of
the slot; functions of the repository that are not in this file (`GameLibrary::init`,
`TitleInfo::DownloadCreate`, the file system) are parameters.  A signal emitted inside a
call runs its slot inside that call, in order of emission.  `double` arithmetic is IEEE
754 binary64 with round-to-nearest-even, every operation rounded once.
-/

namespace MapleTree

/-! ## QString -/

/-- A `QString`, as the Unicode text it holds. -/
abbrev QString := String

/-- Number of UTF-16 code units (`QChar`s) a character takes in a `QString`. -/
def utf16Units (c : Char) : Nat :=
  if c.toNat < 65536 then 1 else 2

/-- The method `QString::count()` (also `length()`): the number of `QChar`s. -/
def QString.count (s : QString) : Nat :=
  (s.toList.map utf16Units).sum

/-- The method `QString::isEmpty()`. -/
def QString.isEmpty (s : QString) : Bool :=
  QString.count s == 0

/-- A hexadecimal character, `0-9`, `a-f` or `A-F` (the title id of the spec is a string
of 16 of them; the window itself never tests for one). -/
def isHexChar (c : Char) : Bool :=
  (48 ≤ c.toNat && c.toNat ≤ 57) || (97 ≤ c.toNat && c.toNat ≤ 102) ||
    (65 ≤ c.toNat && c.toNat ≤ 70)

/-- A piece of a format string as `QString::arg` reads it: a plain character, or a place
marker `%N` / `%LN` (`N` of one or two digits) with the text it was written as. -/
inductive Piece where
  | chr (c : Char)
  | marker (n : Nat) (raw : List Char)
  deriving DecidableEq

/-- Value of a decimal digit character. -/
def digitValue (c : Char) : Option Nat :=
  if c.isDigit then some (c.toNat - 48) else none

/-- Reads the digits of a place marker: its number and how many characters it takes. -/
def markerDigits : List Char → Option (Nat × Nat)
  | [] => none
  | d1 :: r1 =>
    match digitValue d1 with
    | none => none
    | some v1 =>
      match r1 with
      | [] => some (v1, 1)
      | d2 :: _ =>
        match digitValue d2 with
        | none => some (v1, 1)
        | some v2 => some (10 * v1 + v2, 2)

/-- Reads what follows a `%`: an optional `L`, then one or two digits. -/
def markerAt : List Char → Option (Nat × Nat)
  | 'L' :: r => (markerDigits r).map fun p => (p.1, p.2 + 1)
  | r => markerDigits r

/-- Splits a format string into pieces; `skip` counts the characters of a marker that are
still to be passed over. -/
def scanPieces : Nat → List Char → List Piece
  | _, [] => []
  | skip + 1, _ :: rest => scanPieces skip rest
  | 0, c :: rest =>
    if c = '%' then
      match markerAt rest with
      | some (n, len) => Piece.marker n (c :: rest.take len) :: scanPieces len rest
      | none => Piece.chr c :: scanPieces 0 rest
    else Piece.chr c :: scanPieces 0 rest

/-- The numbers of the place markers among the pieces. -/
def markerNumbers : List Piece → List Nat
  | [] => []
  | Piece.chr _ :: ps => markerNumbers ps
  | Piece.marker n _ :: ps => n :: markerNumbers ps

/-- Writes the pieces back, the markers numbered `n` replaced by `a`. -/
def fillPieces (n : Nat) (a : List Char) : List Piece → List Char
  | [] => []
  | Piece.chr c :: ps => c :: fillPieces n a ps
  | Piece.marker m raw :: ps =>
    if m = n then a ++ fillPieces n a ps else raw ++ fillPieces n a ps

/-- Pads `a` on the left with blanks up to `fieldWidth` `QChar`s (a positive field width
right-aligns the text). -/
def padLeft (fieldWidth : Nat) (a : QString) : QString :=
  String.mk (List.replicate (fieldWidth - QString.count a) ' ') ++ a

/-- The method `QString::arg(const QString &a, int fieldWidth)` for `fieldWidth ≥ 0`:
every occurrence of the lowest-numbered place marker is replaced by `a`, padded to the
field width; a string without a marker is returned unchanged. -/
def QString.arg (s : QString) (a : QString) (fieldWidth : Nat) : QString :=
  match (markerNumbers (scanPieces 0 s.toList)).min? with
  | none => s
  | some n => String.mk (fillPieces n (padLeft fieldWidth a).toList (scanPieces 0 s.toList))

/-! ## binary64 -/

/-- A C++ `double`: a finite value as sign and magnitude (so that `-0.0` is a value of its
own), an infinity, or a NaN. -/
inductive Double where
  | finite (neg : Bool) (mag : ℚ)
  | inf (neg : Bool)
  | nan
  deriving DecidableEq

/-- Exponent of the unit in the last place of binary64 at `x > 0`: 53 significant bits,
subnormals from `2 ^ (-1074)`. -/
def ulpExp (x : ℚ) : ℤ :=
  max (Int.log 2 x - 52) (-1074)

/-- Nearest integer, a tie going to the even one. -/
def roundHalfEven (m : ℚ) : ℤ :=
  if m - ⌊m⌋ < 1 / 2 then ⌊m⌋
  else if 1 / 2 < m - ⌊m⌋ then ⌊m⌋ + 1
  else if ⌊m⌋ % 2 = 0 then ⌊m⌋ else ⌊m⌋ + 1

/-- Round-to-nearest-even of a magnitude `x ≥ 0` to the binary64 grid, before the overflow
check. -/
def rndMag (x : ℚ) : ℚ :=
  (roundHalfEven (x / 2 ^ ulpExp x) : ℚ) * 2 ^ ulpExp x

/-- The binary64 result of an operation whose exact result has sign `neg` and magnitude
`x`: rounded to nearest-even, infinite when the rounded magnitude reaches `2 ^ 1024`. -/
def Double.round (neg : Bool) (x : ℚ) : Double :=
  if (2 : ℚ) ^ 1024 ≤ rndMag x then Double.inf neg else Double.finite neg (rndMag x)

/-- Conversion of an integer (`qint64`, `int`) to `double`. -/
def Double.ofInt (i : Int) : Double :=
  Double.round (decide (i < 0)) |(i : ℚ)|

/-- The operator `*` on `double`. -/
def Double.mul : Double → Double → Double
  | Double.finite s a, Double.finite t b => Double.round (s != t) (a * b)
  | Double.finite s a, Double.inf t => if a = 0 then Double.nan else Double.inf (s != t)
  | Double.inf s, Double.finite t b => if b = 0 then Double.nan else Double.inf (s != t)
  | Double.inf s, Double.inf t => Double.inf (s != t)
  | _, _ => Double.nan

/-- The operator `/` on `double`: a non-zero value over zero is an infinity, zero over
zero is a NaN. -/
def Double.div : Double → Double → Double
  | Double.finite s a, Double.finite t b =>
    if b = 0 then (if a = 0 then Double.nan else Double.inf (s != t))
    else Double.round (s != t) (a / b)
  | Double.finite s _, Double.inf t => Double.finite (s != t) 0
  | Double.inf s, Double.finite t _ => Double.inf (s != t)
  | _, _ => Double.nan

/-- The value of a finite `double`. -/
def signed (neg : Bool) (mag : ℚ) : ℚ :=
  if neg then -mag else mag

/-- The operator `<` on `double`: false whenever a NaN is compared. -/
def Double.lt : Double → Double → Bool
  | Double.finite s a, Double.finite t b => decide (signed s a < signed t b)
  | Double.finite _ _, Double.inf t => !t
  | Double.inf s, Double.finite _ _ => s
  | Double.inf s, Double.inf t => s && !t
  | _, _ => false

/-- Nearest natural number to `x ≥ 0`, a tie going up, as the fixed-point conversion Qt
uses (double-conversion) rounds the last digit. -/
def roundHalfUp (x : ℚ) : Nat :=
  ⌊x + 1 / 2⌋₊

/-- The digits after the decimal point: `n` written in `prec` digits. -/
def fractionDigits (prec n : Nat) : QString :=
  String.mk (List.replicate (prec - (Nat.repr n).length) '0') ++ Nat.repr n

/-- A magnitude in fixed-point form with `prec` digits after the decimal point. -/
def fixedDigits (prec : Nat) (mag : ℚ) : QString :=
  if prec = 0 then Nat.repr (roundHalfUp mag)
  else Nat.repr (roundHalfUp (mag * 10 ^ prec) / 10 ^ prec) ++ "." ++
    fractionDigits prec (roundHalfUp (mag * 10 ^ prec) % 10 ^ prec)

/-- The text of a `double` in format `'f'` with `prec` digits after the decimal point, in
the C locale, as `QString::arg(double, int, char, int)` produces it; a zero is written
without a sign. -/
def Double.toFixed (prec : Nat) : Double → QString
  | Double.finite neg mag =>
    (if neg && decide (mag ≠ 0) then "-" else "") ++ fixedDigits prec mag
  | Double.inf neg => if neg then "-inf" else "inf"
  | Double.nan => "nan"

/-- The method `QString::arg(double a, int fieldWidth, char format, int precision)` with
`format = 'f'`. -/
def QString.argDouble (s : QString) (a : Double) (fieldWidth prec : Nat) : QString :=
  QString.arg s (Double.toFixed prec a) fieldWidth

/-- The conversion `static_cast<int>` of a `qint64`: reduction to 32-bit two's complement. -/
def toInt32 (x : Int) : Int :=
  (x + 2 ^ 31) % 2 ^ 32 - 2 ^ 31

/-! ## Collaborators declared outside `mapleseed.cpp` -/

/-- Modelled from the spec: the TitleRecord of one catalog entry (class `TitleInfo`, whose
declaration is not among the sources), with the two accessors the window calls,
`getFormatName()` and `getCoverArt()`. -/
structure TitleInfo where
  id : QString
  formatName : QString
  coverArt : QString
  deriving DecidableEq

/-- Modelled from the spec: the terminal status of a title's acquisition (TransferState). -/
inductive TransferStatus where
  | succeeded
  | failed (reason : QString)
  deriving DecidableEq

/-- Modelled from the spec: what a call of `TitleInfo::DownloadCreate(titleId,
baseDirectory)` amounts to: the placeholder record it returns to the caller, and the status
in which the acquisition it hands off ends.  The caller receives the record only. -/
structure Acquisition where
  record : TitleInfo
  status : TransferStatus
  deriving DecidableEq

/-- Modelled from the spec: the LibraryCatalog (class `GameLibrary`, declared outside the
sources): its public `baseDirectory` and its catalog index. -/
structure GameLibrary where
  baseDirectory : QString
  library : List TitleInfo
  deriving DecidableEq

/-- A `QDir`, by the path it stands for. -/
structure QDir where
  path : QString
  deriving DecidableEq

/-- The static `QDir::isAbsolutePath`: a file name starting with a slash is absolute. -/
def QDir.isAbsolutePath (fileName : QString) : Bool :=
  fileName.toList.head? == some '/'

/-- The method `QDir::filePath(fileName)`: an absolute file name is returned as it is, any
other is appended to the directory's path, a slash put between the two unless one is
there. -/
def QDir.filePath (dir : QDir) (fileName : QString) : QString :=
  if QDir.isAbsolutePath fileName then fileName
  else if fileName = "" then dir.path
  else if dir.path ≠ "" ∧ dir.path.toList.getLast? ≠ some '/' then dir.path ++ "/" ++ fileName
  else dir.path ++ fileName

/-- An entry of the list view (`TitleInfoItem`): the record it wraps (`getItem()`) and the
text it shows. -/
structure TitleInfoItem where
  item : TitleInfo
  text : QString
  deriving DecidableEq

/-- A call a slot makes on a collaborator whose state it never reads back. -/
inductive Call where
  | showMessage (message : QString)
  | setPixmap (coverArt : QString)
  | critical (title text : QString)
  | information (title text : QString)
  | decryptStart (dir : QString)
  | DownloadCreate (titleId baseDirectory : QString)
  | decryptContent (ti : TitleInfo)
  | setRange (minimum maximum : Int)
  | setValue (value : Int)
  | setFormat (format : QString)
  | configLoad
  | configSave
  | setBaseDirectory (path : QString)
  | init (path : QString)
  deriving DecidableEq

/-! ## The window -/

/-- The main window: the state its slots read back, and the log of their calls. -/
structure MapleSeed where
  /-- the configuration's base directory (`config->getBaseDirectory()`) -/
  baseDirectory : QString
  /-- the object `gameLibrary` -/
  gameLibrary : GameLibrary
  /-- the entries of `ui->listWidget`, first to last -/
  listWidget : List TitleInfoItem
  /-- the current row of `ui->listWidget`, `-1` when there is none -/
  currentRow : Int
  /-- the calls made so far, oldest first -/
  calls : List Call

namespace MapleSeed

/-- Appends a call to the log. -/
def call (w : MapleSeed) (c : Call) : MapleSeed :=
  { w with calls := w.calls ++ [c] }

/-- The slot `MapleSeed::itemSelectionChanged`: shows the cover art of the selected entry,
if there is one. -/
def itemSelectionChanged (w : MapleSeed) : MapleSeed :=
  if w.currentRow < 0 then w
  else
    match w.listWidget.get? w.currentRow.toNat with
    | none => w
    | some tii => w.call (Call.setPixmap tii.item.coverArt)

/-- The call `ui->listWidget->setCurrentRow(row)`; a change of the selection runs the slot
connected to `itemSelectionChanged`. -/
def setCurrentRow (w : MapleSeed) (row : Int) : MapleSeed :=
  if w.currentRow = row then w
  else itemSelectionChanged { w with currentRow := row }

/-- The slot `MapleSeed::updateListview(TitleInfo *tb)`. -/
def updateListview (w : MapleSeed) (tb : TitleInfo) : MapleSeed :=
  let w1 := if w.listWidget.length = 1 then w.setCurrentRow 0 else w
  let tii : TitleInfoItem := { item := tb, text := tb.formatName }
  let w2 := { w1 with listWidget := w1.listWidget ++ [tii] }
  w2.call (Call.showMessage ("Added to library: " ++ tb.formatName))

/-- The call `gameLibrary->init(path)`.  The function `GameLibrary::init` is not among the
sources and is the parameter `init`: from the library and the path it gives the library
afterwards and the records it notified through the signal `changed`, in order; each
notification runs the connected slot `updateListview`. -/
def libraryInit (init : GameLibrary → QString → GameLibrary × List TitleInfo)
    (w : MapleSeed) (path : QString) : MapleSeed :=
  let w1 := w.call (Call.init path)
  let w2 := { w1 with gameLibrary := (init w1.gameLibrary path).1 }
  (init w1.gameLibrary path).2.foldl updateListview w2

/-- The function `MapleSeed::initialize`, run once at startup (named `initializeWindow`
here, `initialize` being a keyword of Lean); `load` is what `config->load()` returns and
`configured` the base directory the configuration holds from then on, the value of
`config->getBaseDirectory()` at line 33. -/
def initializeWindow (init : GameLibrary → QString → GameLibrary × List TitleInfo)
    (load : Bool) (configured : QString) (w : MapleSeed) : MapleSeed :=
  let w1 := w.call (Call.showMessage "Setting up enviornment variables")
  let w2 := { w1.call Call.configLoad with baseDirectory := configured }
  let w3 := if load then w2 else w2.call Call.configSave
  let w4 := libraryInit init w3 w3.baseDirectory
  w4.call (Call.showMessage "Environment setup complete")

/-- The slot `MapleSeed::menuChangeLibrary`; `dir` is what `selectDirectory()` returns,
`none` for `nullptr` (the dialog was cancelled). -/
def menuChangeLibrary (init : GameLibrary → QString → GameLibrary × List TitleInfo)
    (dir : Option QDir) (w : MapleSeed) : MapleSeed :=
  match dir with
  | none => w
  | some dir =>
    let w1 := { w.call (Call.setBaseDirectory dir.path) with baseDirectory := dir.path }
    let w2 := { w1 with listWidget := [], currentRow := -1 }
    let w3 := libraryInit init w2 dir.path
    let w4 :=
      match w3.listWidget with
      | [] => w3
      | tii :: _ => w3.call (Call.setPixmap tii.item.coverArt)
    w4.call (Call.showMessage ("Game library has been updated to: " ++ dir.path))

/-- The slot `MapleSeed::decryptContent`; `dir` is what `selectDirectory()` returns and
`fileExists` is `QFileInfo::exists` on a path. -/
def decryptContent (fileExists : QString → Bool) (dir : Option QDir) (w : MapleSeed) :
    MapleSeed :=
  match dir with
  | none => w
  | some dir =>
    if !fileExists (dir.filePath "tmd") then
      w.call (Call.critical "Missing file" ("Missing: " ++ dir.filePath "/tmd"))
    else if !fileExists (dir.filePath "cetk") then
      w.call (Call.critical "Missing file" ("Missing: " ++ dir.filePath "/cetk"))
    else
      ((w.call (Call.showMessage ("Decrypt directory: " ++ dir.path))).call
        (Call.decryptStart dir.path)).call
        (Call.showMessage ("Decrypt complete: " ++ dir.path))

/-- The slot `MapleSeed::startDownload`; `ok` and `text` are what the input dialog
returns.  The function `TitleInfo::DownloadCreate` is not among the sources and is the
parameter `DownloadCreate`. -/
def startDownload (DownloadCreate : QString → QString → Acquisition) (ok : Bool)
    (text : QString) (w : MapleSeed) : MapleSeed :=
  if !ok then w
  else if QString.isEmpty text || QString.count text != 16 then
    w.call (Call.information "Download Title Error"
      "Invalid title id. Please verify your title id is 16 characters")
  else
    let ti := (DownloadCreate text w.gameLibrary.baseDirectory).record
    (w.call (Call.DownloadCreate text w.gameLibrary.baseDirectory)).call
      (Call.decryptContent ti)

/-- Line 171: `bytesReceived * 1000.0 / qtime.elapsed()`; `elapsed` is the `int` that
`qtime.elapsed()` returns. -/
def speed (bytesReceived elapsed : Int) : Double :=
  Double.div (Double.mul (Double.ofInt bytesReceived) (Double.finite false 1000))
    (Double.ofInt elapsed)

/-- Lines 172-181: the number to show and its unit. -/
def throughput (speed : Double) : Double × QString :=
  if Double.lt speed (Double.ofInt 1024) then (speed, "bytes/sec")
  else if Double.lt speed (Double.ofInt (1024 * 1024)) then
    (Double.div speed (Double.ofInt 1024), "kB/s")
  else (Double.div speed (Double.ofInt (1024 * 1024)), "MB/s")

/-- The throughput label of line 183:
`QString::fromLatin1("%1 %2").arg(speed, 3, 'f', 1).arg(unit)`. -/
def throughputLabel (bytesReceived elapsed : Int) : QString :=
  QString.arg
    (QString.argDouble "%1 %2" (throughput (speed bytesReceived elapsed)).1 3 1)
    (throughput (speed bytesReceived elapsed)).2 0

/-- The slot `MapleSeed::updateProgress(bytesReceived, bytesTotal, qtime)`. -/
def updateProgress (bytesReceived bytesTotal elapsed : Int) (w : MapleSeed) : MapleSeed :=
  ((w.call (Call.setRange 0 (toInt32 bytesTotal))).call
    (Call.setValue (toInt32 bytesReceived))).call
    (Call.setFormat ("%p%   /   " ++ throughputLabel bytesReceived elapsed))

end MapleSeed

/-- The calls made between two states of the window. -/
def newCalls (before after : MapleSeed) : List Call :=
  after.calls.drop before.calls.length

/-! ## Concrete inputs for the examples -/

/-- A window over the library directory `/library`, with an empty list view and no call
made yet. -/
def sampleWindow : MapleSeed :=
  { baseDirectory := "/library"
    gameLibrary := { baseDirectory := "/library", library := [] }
    listWidget := []
    currentRow := -1
    calls := [] }

/-- A `TitleInfo::DownloadCreate` whose acquisition fails: it returns the placeholder
record of the title and the transfer ends in `failed`. -/
def failingDownloadCreate (titleId _baseDirectory : QString) : Acquisition :=
  { record := { id := titleId, formatName := titleId, coverArt := "" }
    status := TransferStatus.failed "connection error" }

/-! ## The call log -/

theorem newCalls_call2 (w : MapleSeed) (c d : Call) :
    newCalls w ((w.call c).call d) = [c, d] := by
  simp [newCalls, MapleSeed.call]

theorem newCalls_call (w : MapleSeed) (c : Call) : newCalls w (w.call c) = [c] := by
  simp [newCalls, MapleSeed.call]

theorem newCalls_call3 (w : MapleSeed) (c d e : Call) :
    newCalls w (((w.call c).call d).call e) = [c, d, e] := by
  simp [newCalls, MapleSeed.call]

/-! ## Rounding to binary64: monotone, exact on representable values -/

theorem floor_le_roundHalfEven (m : ℚ) : ⌊m⌋ ≤ roundHalfEven m := by
  unfold roundHalfEven
  split_ifs <;> omega

theorem roundHalfEven_le_floor_succ (m : ℚ) : roundHalfEven m ≤ ⌊m⌋ + 1 := by
  unfold roundHalfEven
  split_ifs <;> omega

theorem roundHalfEven_intCast (n : ℤ) : roundHalfEven (n : ℚ) = n := by
  unfold roundHalfEven
  simp

theorem roundHalfEven_mono {x y : ℚ} (h : x ≤ y) : roundHalfEven x ≤ roundHalfEven y := by
  have hf : ⌊x⌋ ≤ ⌊y⌋ := Int.floor_mono h
  rcases hf.lt_or_eq with hlt | heq
  · calc roundHalfEven x ≤ ⌊x⌋ + 1 := roundHalfEven_le_floor_succ x
      _ ≤ ⌊y⌋ := hlt
      _ ≤ roundHalfEven y := floor_le_roundHalfEven y
  · unfold roundHalfEven
    rw [heq]
    have hxy : x - ⌊y⌋ ≤ y - ⌊y⌋ := by linarith
    split_ifs <;> first | omega | linarith

theorem two_zpow_pos (k : ℤ) : (0 : ℚ) < 2 ^ k := zpow_pos (by norm_num) k

theorem two_zpow_le {a b : ℤ} (h : a ≤ b) : (2 : ℚ) ^ a ≤ 2 ^ b :=
  zpow_le_zpow_right₀ (by norm_num) h

theorem rndMag_zero : rndMag 0 = 0 := by
  unfold rndMag
  simp [roundHalfEven]

theorem rndMag_nonneg {x : ℚ} (hx : 0 ≤ x) : 0 ≤ rndMag x := by
  unfold rndMag
  have h0 : (0 : ℚ) ≤ x / 2 ^ ulpExp x := div_nonneg hx (two_zpow_pos _).le
  have h1 : (0 : ℤ) ≤ roundHalfEven (x / 2 ^ ulpExp x) := by
    have := roundHalfEven_mono h0
    rw [show ((0 : ℚ)) = ((0 : ℤ) : ℚ) by simp, roundHalfEven_intCast] at this
    exact this
  exact mul_nonneg (by exact_mod_cast h1) (two_zpow_pos _).le

/-- log bound -/
theorem log_lt_of_lt_zpow {x : ℚ} (hx : 0 < x) {k : ℤ} (h : x < 2 ^ k) : Int.log 2 x < k := by
  have := (Int.lt_zpow_iff_log_lt (R := ℚ) (b := 2) (by norm_num) hx).1 (by exact_mod_cast h)
  exact this

theorem le_log_of_zpow_le {x : ℚ} (hx : 0 < x) {k : ℤ} (h : 2 ^ k ≤ x) : k ≤ Int.log 2 x := by
  have := (Int.zpow_le_iff_le_log (R := ℚ) (b := 2) (by norm_num) hx).1 (by exact_mod_cast h)
  exact this

theorem zpow_log_le {x : ℚ} (hx : 0 < x) : (2 : ℚ) ^ Int.log 2 x ≤ x := by
  have := Int.zpow_log_le_self (R := ℚ) (b := 2) (by norm_num) hx
  exact_mod_cast this

theorem lt_zpow_log_succ (x : ℚ) : x < (2 : ℚ) ^ (Int.log 2 x + 1) := by
  have := Int.lt_zpow_succ_log_self (R := ℚ) (b := 2) (by norm_num) x
  exact_mod_cast this

/-- Exactness: a value m * 2^ex with m < 2^53 and ex ≥ -1074 is its own rounding. -/
theorem rndMag_of_rep (m : ℕ) (ex : ℤ) (hm : m < 2 ^ 53) (hex : -1074 ≤ ex) :
    rndMag ((m : ℚ) * 2 ^ ex) = (m : ℚ) * 2 ^ ex := by
  rcases Nat.eq_zero_or_pos m with h0 | hpos
  · subst h0; simp [rndMag_zero]
  have hx : (0 : ℚ) < (m : ℚ) * 2 ^ ex := mul_pos (by exact_mod_cast hpos) (two_zpow_pos _)
  have hlt : (m : ℚ) * 2 ^ ex < 2 ^ (53 + ex) := by
    rw [zpow_add₀ (by norm_num : (2 : ℚ) ≠ 0)]
    have : (m : ℚ) < 2 ^ (53 : ℤ) := by exact_mod_cast hm
    exact mul_lt_mul_of_pos_right this (two_zpow_pos _)
  have hlog := log_lt_of_lt_zpow hx hlt
  have hu : ulpExp ((m : ℚ) * 2 ^ ex) ≤ ex := by
    unfold ulpExp
    exact max_le (by omega) hex
  obtain ⟨d, hd⟩ : ∃ d : ℕ, ex = ulpExp ((m : ℚ) * 2 ^ ex) + d :=
    ⟨(ex - ulpExp ((m : ℚ) * 2 ^ ex)).toNat, by omega⟩
  unfold rndMag
  generalize ulpExp ((m : ℚ) * 2 ^ ex) = u at hd ⊢
  have hq : (m : ℚ) * 2 ^ ex / 2 ^ u = ((m * 2 ^ d : ℤ) : ℚ) := by
    rw [hd, zpow_add₀ (by norm_num : (2 : ℚ) ≠ 0), zpow_natCast]
    have hu0 : (2 : ℚ) ^ u ≠ 0 := (two_zpow_pos u).ne.symm
    field_simp
    ring
  rw [hq, roundHalfEven_intCast, hd, zpow_add₀ (by norm_num : (2 : ℚ) ≠ 0), zpow_natCast]
  push_cast
  ring

theorem mantissa_le (x : ℚ) : roundHalfEven (x / 2 ^ ulpExp x) ≤ 2 ^ 53 := by
  have hu : Int.log 2 x + 1 ≤ ulpExp x + 53 := by
    unfold ulpExp
    have := le_max_left (Int.log 2 x - 52) (-1074)
    omega
  have h1 : x < 2 ^ (ulpExp x + 53) := lt_of_lt_of_le (lt_zpow_log_succ x) (two_zpow_le hu)
  have h2 : x / 2 ^ ulpExp x ≤ (((2 : ℤ) ^ 53 : ℤ) : ℚ) := by
    rw [div_le_iff₀ (two_zpow_pos _)]
    rw [zpow_add₀ (by norm_num : (2 : ℚ) ≠ 0)] at h1
    push_cast
    have : ((2 : ℚ) ^ (53 : ℤ)) = 2 ^ 53 := by norm_cast
    rw [this] at h1
    linarith
  have := roundHalfEven_mono h2
  rwa [roundHalfEven_intCast] at this

theorem le_mantissa {x : ℚ} (hx : 0 < x) (hu : -1074 < ulpExp x) :
    2 ^ 52 ≤ roundHalfEven (x / 2 ^ ulpExp x) := by
  have hu2 : Int.log 2 x = ulpExp x + 52 := by
    unfold ulpExp at hu ⊢
    rcases max_cases (Int.log 2 x - 52) (-1074) with ⟨h, _⟩ | ⟨h, _⟩
    · rw [h]; ring
    · rw [h] at hu; omega
  have h1 : (2 : ℚ) ^ (ulpExp x + 52) ≤ x := by
    rw [← hu2]; exact zpow_log_le hx
  have h2 : (((2 : ℤ) ^ 52 : ℤ) : ℚ) ≤ x / 2 ^ ulpExp x := by
    rw [le_div_iff₀ (two_zpow_pos _)]
    rw [zpow_add₀ (by norm_num : (2 : ℚ) ≠ 0)] at h1
    push_cast
    have : ((2 : ℚ) ^ (52 : ℤ)) = 2 ^ 52 := by norm_cast
    rw [this] at h1
    linarith
  have := roundHalfEven_mono h2
  rwa [roundHalfEven_intCast] at this

theorem ulpExp_mono {x y : ℚ} (hx : 0 < x) (h : x ≤ y) : ulpExp x ≤ ulpExp y := by
  unfold ulpExp
  have := Int.log_mono_right (b := 2) hx h
  exact max_le_max (by omega) le_rfl

theorem rndMag_mono {x y : ℚ} (hx : 0 ≤ x) (h : x ≤ y) : rndMag x ≤ rndMag y := by
  rcases hx.lt_or_eq with hpos | h0
  swap
  · rw [← h0, rndMag_zero]; exact rndMag_nonneg (h0 ▸ h)
  have hy : 0 < y := lt_of_lt_of_le hpos h
  rcases (ulpExp_mono hpos h).lt_or_eq with hlt | heq
  · have hA : rndMag x ≤ 2 ^ (ulpExp x + 53) := by
      unfold rndMag
      rw [zpow_add₀ (by norm_num : (2 : ℚ) ≠ 0), mul_comm ((2 : ℚ) ^ ulpExp x)]
      have : ((roundHalfEven (x / 2 ^ ulpExp x) : ℤ) : ℚ) ≤ 2 ^ (53 : ℤ) := by
        have := mantissa_le x
        exact_mod_cast this
      exact mul_le_mul_of_nonneg_right this (two_zpow_pos _).le
    have hu : -1074 < ulpExp y := by
      have : -1074 ≤ ulpExp x := le_max_right _ _
      omega
    have hB : (2 : ℚ) ^ (ulpExp y + 52) ≤ rndMag y := by
      unfold rndMag
      rw [zpow_add₀ (by norm_num : (2 : ℚ) ≠ 0), mul_comm ((2 : ℚ) ^ ulpExp y)]
      have : (2 : ℚ) ^ (52 : ℤ) ≤ ((roundHalfEven (y / 2 ^ ulpExp y) : ℤ) : ℚ) := by
        have := le_mantissa hy hu
        exact_mod_cast this
      exact mul_le_mul_of_nonneg_right this (two_zpow_pos _).le
    calc rndMag x ≤ 2 ^ (ulpExp x + 53) := hA
      _ ≤ 2 ^ (ulpExp y + 52) := two_zpow_le (by omega)
      _ ≤ rndMag y := hB
  · unfold rndMag
    rw [heq]
    have h1 : x / 2 ^ ulpExp y ≤ y / 2 ^ ulpExp y :=
      div_le_div_of_nonneg_right h (two_zpow_pos _).le
    have := roundHalfEven_mono h1
    exact mul_le_mul_of_nonneg_right (by exact_mod_cast this) (two_zpow_pos _).le

theorem rndMag_natCast (n : ℕ) (h : n < 2 ^ 53) : rndMag (n : ℚ) = n := by
  have := rndMag_of_rep n 0 h (by norm_num)
  simpa using this

theorem abs_roundHalfEven_sub_le (m : ℚ) : |(roundHalfEven m : ℚ) - m| ≤ 1 / 2 := by
  have h1 : (⌊m⌋ : ℚ) ≤ m := Int.floor_le m
  have h2 : m < ⌊m⌋ + 1 := Int.lt_floor_add_one m
  unfold roundHalfEven
  rw [abs_le]
  split_ifs <;> constructor <;> push_cast <;> linarith

/-! ## Line 171: no overflow, and the magnitude of the speed -/

theorem rndMag_two_pow (n : ℕ) : rndMag ((2 : ℚ) ^ n) = 2 ^ n := by
  have := rndMag_of_rep 1 (n : ℤ) (by norm_num) (by omega)
  simpa using this

theorem rndMag_le_two_pow {x : ℚ} (hx : 0 ≤ x) (n : ℕ) (h : x ≤ 2 ^ n) : rndMag x ≤ 2 ^ n := by
  have := rndMag_mono hx h
  rwa [rndMag_two_pow] at this

theorem two_pow_le_rndMag {x : ℚ} (n : ℕ) (h : 2 ^ n ≤ x) : 2 ^ n ≤ rndMag x := by
  have := rndMag_mono (by positivity) h
  rwa [rndMag_two_pow] at this

theorem round_eq_finite (neg : Bool) {x : ℚ} (h : rndMag x < 2 ^ 1024) :
    Double.round neg x = Double.finite neg (rndMag x) := by
  unfold Double.round
  rw [if_neg (not_le.2 h)]

theorem round_of_le (neg : Bool) {x : ℚ} (hx : 0 ≤ x) (n : ℕ) (hn : n < 1024) (h : x ≤ 2 ^ n) :
    Double.round neg x = Double.finite neg (rndMag x) := by
  apply round_eq_finite
  have h1 := rndMag_le_two_pow hx n h
  have h2 : (2 : ℚ) ^ n < 2 ^ 1024 := pow_lt_pow_right₀ (by norm_num) hn
  linarith

theorem ofInt_natCast (n : ℕ) (h : n < 2 ^ 53) :
    Double.ofInt (n : ℤ) = Double.finite false n := by
  unfold Double.ofInt
  have h0 : |((n : ℤ) : ℚ)| = (n : ℚ) := by simp
  have hlt : ¬ ((n : ℤ) < 0) := by omega
  rw [h0, decide_eq_false hlt]
  have hle : (n : ℚ) ≤ 2 ^ 53 := by exact_mod_cast h.le
  rw [round_of_le false (by positivity) 53 (by norm_num) hle, rndMag_natCast n h]

/-- The magnitude of the `double` computed at line 171. -/
theorem speed_eq (b e : ℤ) (hb0 : 0 ≤ b) (hb : b < 2 ^ 63) (he0 : 0 < e) (he : e < 2 ^ 31) :
    MapleSeed.speed b e =
      Double.finite false (rndMag (rndMag (rndMag (b : ℚ) * 1000) / e)) := by
  obtain ⟨n, rfl⟩ := Int.eq_ofNat_of_zero_le hb0
  obtain ⟨k, rfl⟩ := Int.eq_ofNat_of_zero_le he0.le
  have hk : k < 2 ^ 53 := by omega
  have hk0 : (k : ℚ) ≠ 0 := by
    have : 0 < k := by omega
    positivity
  have hnq : (n : ℚ) ≤ 2 ^ 63 := by
    have : n ≤ 2 ^ 63 := by omega
    exact_mod_cast this
  have hB : rndMag (n : ℚ) ≤ 2 ^ 63 := rndMag_le_two_pow (by positivity) 63 hnq
  have hB0 : 0 ≤ rndMag (n : ℚ) := rndMag_nonneg (by positivity)
  have hP : rndMag (rndMag (n : ℚ) * 1000) ≤ 2 ^ 73 :=
    rndMag_le_two_pow (by positivity) 73 (by linarith)
  have hP0 : 0 ≤ rndMag (rndMag (n : ℚ) * 1000) := rndMag_nonneg (by positivity)
  have hk1 : (1 : ℚ) ≤ k := by
    have : 1 ≤ k := by omega
    exact_mod_cast this
  have hQ : rndMag (rndMag (n : ℚ) * 1000) / k ≤ 2 ^ 73 := by
    rw [div_le_iff₀ (by linarith)]
    nlinarith
  unfold MapleSeed.speed
  rw [ofInt_natCast k hk]
  unfold Double.ofInt
  have h0 : |((n : ℤ) : ℚ)| = (n : ℚ) := by simp
  have hlt : ¬ ((n : ℤ) < 0) := by omega
  rw [h0, decide_eq_false hlt, round_of_le false (by positivity) 63 (by norm_num) hnq]
  unfold Double.mul
  simp only [bne_self_eq_false]
  rw [round_of_le false (by positivity) 73 (by norm_num) (by linarith)]
  unfold Double.div
  simp only [bne_self_eq_false, if_neg hk0]
  rw [round_of_le false (by positivity) 73 (by norm_num) hQ]
  simp
/-! ## The thresholds 1024 and 1024 * 1024 are decided by the exact rate -/

/-- The three roundings of line 171 collapse to one when `bytesReceived * 1000` is below
`2 ^ 53`. -/
theorem speedMag_exact (n k : ℕ) (h : n * 1000 < 2 ^ 53) :
    rndMag (rndMag (rndMag (n : ℚ) * 1000) / k) = rndMag ((n : ℚ) * 1000 / k) := by
  have h1 : rndMag (n : ℚ) = n := rndMag_natCast n (by omega)
  have h2 : rndMag ((n : ℚ) * 1000) = (n : ℚ) * 1000 := by
    have := rndMag_natCast (n * 1000) h
    push_cast at this
    exact this
  rw [h1, h2]

theorem speedMag_lt (n k T : ℕ) (hk0 : 0 < k) (hk : k < 2147483648) (hT0 : 0 < T)
    (hT : T ≤ 2097152) (h : (n : ℚ) * 1000 / k < T) :
    rndMag (rndMag (rndMag (n : ℚ) * 1000) / k) < T := by
  have hkq : (0 : ℚ) < k := by exact_mod_cast hk0
  have hnat : n * 1000 < T * k := by
    rw [div_lt_iff₀ hkq] at h
    exact_mod_cast h
  have hbound : T * k ≤ 2097152 * 2147483648 := Nat.mul_le_mul hT hk.le
  have hexact : n * 1000 < 2 ^ 53 := by
    norm_num
    omega
  rw [speedMag_exact n k hexact]
  have hm : T * 2147483648 - 1 < 2 ^ 53 := by
    norm_num
    omega
  have hval : ((T * 2147483648 - 1 : ℕ) : ℚ) * 2 ^ (-31 : ℤ) = T - 1 / 2147483648 := by
    have h1 : 1 ≤ T * 2147483648 := by omega
    rw [Nat.cast_sub h1]
    push_cast
    have hz : (2 : ℚ) ^ (-31 : ℤ) = 1 / 2147483648 := by norm_num
    rw [hz]
    ring
  have hle : (n : ℚ) * 1000 / k ≤ T - 1 / 2147483648 := by
    have hn1 : (n : ℚ) * 1000 + 1 ≤ T * k := by exact_mod_cast hnat
    have hk31 : (k : ℚ) ≤ 2147483648 := by exact_mod_cast hk.le
    rw [div_le_iff₀ hkq]
    have : (k : ℚ) / 2147483648 ≤ 1 := by
      rw [div_le_iff₀ (by norm_num)]
      linarith
    have e1 : ((T : ℚ) - 1 / 2147483648) * k = T * k - k / 2147483648 := by ring
    rw [e1]
    linarith
  have hmono := rndMag_mono (div_nonneg (by positivity) hkq.le) hle
  rw [← hval, rndMag_of_rep _ (-31) hm (by norm_num), hval] at hmono
  have : (0 : ℚ) < 1 / 2147483648 := by norm_num
  linarith

theorem speedMag_ge (n k T : ℕ) (hk0 : 0 < k) (hk : k < 2147483648)
    (hT : T ≤ 2097152) (hrep : rndMag (T : ℚ) = T) (h : (T : ℚ) ≤ (n : ℚ) * 1000 / k) :
    (T : ℚ) ≤ rndMag (rndMag (rndMag (n : ℚ) * 1000) / k) := by
  have hkq : (0 : ℚ) < k := by exact_mod_cast hk0
  have hnat : T * k ≤ n * 1000 := by
    rw [le_div_iff₀ hkq] at h
    exact_mod_cast h
  have hbound : T * k ≤ 2097152 * 2147483648 := Nat.mul_le_mul hT hk.le
  generalize ht : T * k = t at hnat hbound
  have hc1 : (t + 999) / 1000 ≤ n := by omega
  have hc2 : t ≤ (t + 999) / 1000 * 1000 := by omega
  have hc3 : (t + 999) / 1000 < 2 ^ 53 := by
    norm_num
    omega
  have ht53 : t < 2 ^ 53 := by
    norm_num
    omega
  have hB : ((((t + 999) / 1000 : ℕ)) : ℚ) ≤ rndMag (n : ℚ) := by
    have := rndMag_mono (x := (((t + 999) / 1000 : ℕ) : ℚ)) (y := (n : ℚ)) (by positivity)
      (by exact_mod_cast hc1)
    rwa [rndMag_natCast _ hc3] at this
  have hB2 : (t : ℚ) ≤ rndMag (n : ℚ) * 1000 := by
    have : (t : ℚ) ≤ (((t + 999) / 1000 : ℕ) : ℚ) * 1000 := by exact_mod_cast hc2
    linarith
  have hP : (t : ℚ) ≤ rndMag (rndMag (n : ℚ) * 1000) := by
    have := rndMag_mono (x := (t : ℚ)) (by positivity) hB2
    rwa [rndMag_natCast t ht53] at this
  have hQ : (T : ℚ) ≤ rndMag (rndMag (n : ℚ) * 1000) / k := by
    rw [le_div_iff₀ hkq]
    have : ((T : ℚ) * k) = t := by exact_mod_cast ht
    rw [this]
    exact hP
  have := rndMag_mono (by positivity) hQ
  rwa [hrep] at this
/-! ## Division by 1024 and 1024 * 1024 is exact; error of the speed -/

theorem mantissa_nonneg {x : ℚ} (hx : 0 ≤ x) : 0 ≤ roundHalfEven (x / 2 ^ ulpExp x) := by
  have h0 : (((0 : ℤ)) : ℚ) ≤ x / 2 ^ ulpExp x := by
    simpa using div_nonneg hx (two_zpow_pos (ulpExp x)).le
  have := roundHalfEven_mono h0
  rwa [roundHalfEven_intCast] at this

/-- Dividing a rounded value by a power of two is exact as long as the quotient stays at
or above one. -/
theorem rndMag_div_two_pow {x : ℚ} (hx : 0 ≤ x) (j : ℕ)
    (h : 2 ^ j ≤ rndMag x) : rndMag (rndMag x / 2 ^ j) = rndMag x / 2 ^ j := by
  obtain ⟨m, hm⟩ := Int.eq_ofNat_of_zero_le (mantissa_nonneg hx)
  have hm53 : m ≤ 2 ^ 53 := by
    have := mantissa_le x
    rw [hm] at this
    exact_mod_cast this
  have hval : rndMag x = (m : ℚ) * 2 ^ ulpExp x := by
    unfold rndMag
    rw [hm]
    simp
  have hu : (j : ℤ) ≤ 53 + ulpExp x := by
    have h1 : (2 : ℚ) ^ (j : ℤ) ≤ 2 ^ (53 + ulpExp x) := by
      rw [zpow_natCast, zpow_add₀ (by norm_num : (2 : ℚ) ≠ 0)]
      have : (m : ℚ) ≤ 2 ^ (53 : ℤ) := by exact_mod_cast hm53
      calc (2 : ℚ) ^ j ≤ (m : ℚ) * 2 ^ ulpExp x := by rw [← hval]; exact h
        _ ≤ 2 ^ (53 : ℤ) * 2 ^ ulpExp x :=
          mul_le_mul_of_nonneg_right this (two_zpow_pos _).le
    exact (zpow_le_zpow_iff_right₀ (by norm_num : (1 : ℚ) < 2)).1 h1
  have hj0 : (2 : ℚ) ^ j ≠ 0 := by positivity
  rcases hm53.lt_or_eq with hlt | heq
  · have key : rndMag x / 2 ^ j = (m : ℚ) * 2 ^ (ulpExp x - j) := by
      rw [hval, zpow_sub₀ (by norm_num : (2 : ℚ) ≠ 0), zpow_natCast]
      ring
    rw [key]
    exact rndMag_of_rep m _ hlt (by omega)
  · have key : rndMag x / 2 ^ j = ((2 ^ 52 : ℕ) : ℚ) * 2 ^ (ulpExp x + 1 - j) := by
      rw [hval, heq, zpow_sub₀ (by norm_num : (2 : ℚ) ≠ 0), zpow_natCast,
        zpow_add₀ (by norm_num : (2 : ℚ) ≠ 0)]
      push_cast
      ring
    rw [key]
    exact rndMag_of_rep _ _ (by norm_num) (by omega)

/-- Relative error of one rounding in the normal range. -/
theorem rndMag_rel_err {x : ℚ} (hx : 0 < x) (hlog : -1022 ≤ Int.log 2 x) :
    x * (1 - 1 / 2 ^ 53) ≤ rndMag x ∧ rndMag x ≤ x * (1 + 1 / 2 ^ 53) := by
  have hu : ulpExp x = Int.log 2 x - 52 := by
    unfold ulpExp
    exact max_eq_left (by omega)
  have habs := abs_roundHalfEven_sub_le (x / 2 ^ ulpExp x)
  rw [abs_le] at habs
  have hpos := two_zpow_pos (ulpExp x)
  have hx2 : x = x / 2 ^ ulpExp x * 2 ^ ulpExp x := by
    field_simp
  have hulp : (2 : ℚ) ^ ulpExp x ≤ x * (2 / 2 ^ 53) := by
    rw [hu, zpow_sub₀ (by norm_num : (2 : ℚ) ≠ 0)]
    have h1 := zpow_log_le hx
    have h2 : (2 : ℚ) ^ (52 : ℤ) = 2 ^ 53 / 2 := by norm_num
    rw [h2]
    have h3 := two_zpow_pos (Int.log 2 x)
    have : (2 : ℚ) ^ Int.log 2 x / (2 ^ 53 / 2) = 2 ^ Int.log 2 x * (2 / 2 ^ 53) := by
      field_simp
    rw [this]
    exact mul_le_mul_of_nonneg_right h1 (by norm_num)
  unfold rndMag
  generalize roundHalfEven (x / 2 ^ ulpExp x) = M at habs
  generalize (2 : ℚ) ^ ulpExp x = p at *
  generalize x / p = q at *
  subst hx2
  constructor <;> nlinarith

theorem rndMag_rel_err_of_ge {x : ℚ} (h : 1 / 2 ^ 31 ≤ x) :
    x * (1 - 1 / 2 ^ 53) ≤ rndMag x ∧ rndMag x ≤ x * (1 + 1 / 2 ^ 53) := by
  have hx : 0 < x := lt_of_lt_of_le (by norm_num) h
  have h31 : (2 : ℚ) ^ (-31 : ℤ) ≤ x := by
    have : (2 : ℚ) ^ (-31 : ℤ) = 1 / 2 ^ 31 := by norm_num
    rw [this]; exact h
  have := le_log_of_zpow_le hx h31
  exact rndMag_rel_err hx (by omega)

/-- The `double` of line 171 is within relative error `2 ^ (-51)` of the exact rate. -/
theorem speedMag_rel_err (n k : ℕ) (hk0 : 0 < k) (hk : k < 2147483648) :
    |rndMag (rndMag (rndMag (n : ℚ) * 1000) / k) - (n : ℚ) * 1000 / k| ≤
      (n : ℚ) * 1000 / k / 2 ^ 51 := by
  rcases Nat.eq_zero_or_pos n with h0 | hn
  · subst h0
    simp [rndMag_zero]
  have hkq : (0 : ℚ) < k := by exact_mod_cast hk0
  have hk31 : (k : ℚ) ≤ 2147483648 := by exact_mod_cast hk.le
  have hn1 : (1 : ℚ) ≤ n := by exact_mod_cast hn
  obtain ⟨hB1, hB2⟩ := rndMag_rel_err_of_ge (x := (n : ℚ)) (by linarith)
  have hBge : (1 : ℚ) ≤ rndMag (n : ℚ) := by
    have := two_pow_le_rndMag (x := (n : ℚ)) 0 (by simpa using hn1)
    simpa using this
  obtain ⟨hP1, hP2⟩ := rndMag_rel_err_of_ge (x := rndMag (n : ℚ) * 1000) (by linarith)
  have hPge : (1 : ℚ) ≤ rndMag (rndMag (n : ℚ) * 1000) := by
    have := two_pow_le_rndMag (x := rndMag (n : ℚ) * 1000) 0 (by linarith)
    simpa using this
  have hQge : 1 / 2 ^ 31 ≤ rndMag (rndMag (n : ℚ) * 1000) / k := by
    rw [le_div_iff₀ hkq]
    norm_num
    linarith
  obtain ⟨hS1, hS2⟩ := rndMag_rel_err_of_ge hQge
  generalize rndMag (rndMag (rndMag (n : ℚ) * 1000) / k) = S at hS1 hS2 ⊢
  have hPk : rndMag (rndMag (n : ℚ) * 1000) / k ≤
      (n : ℚ) * 1000 / k * ((1 + 1 / 2 ^ 53) * (1 + 1 / 2 ^ 53)) := by
    rw [div_mul_eq_mul_div, div_le_div_iff_of_pos_right hkq]
    nlinarith
  have hPk' : (n : ℚ) * 1000 / k * ((1 - 1 / 2 ^ 53) * (1 - 1 / 2 ^ 53)) ≤
      rndMag (rndMag (n : ℚ) * 1000) / k := by
    rw [div_mul_eq_mul_div, div_le_div_iff_of_pos_right hkq]
    nlinarith
  generalize rndMag (rndMag (n : ℚ) * 1000) / k = Q at hS1 hS2 hPk hPk'
  have hr : (0 : ℚ) ≤ (n : ℚ) * 1000 / k := by positivity
  generalize (n : ℚ) * 1000 / k = r at hPk hPk' hr ⊢
  rw [abs_le]
  constructor
  · have h1 : r * ((1 - 1 / 2 ^ 53) * (1 - 1 / 2 ^ 53)) * (1 - 1 / 2 ^ 53) ≤ S := by
      have := mul_le_mul_of_nonneg_right hPk' (by norm_num : (0 : ℚ) ≤ 1 - 1 / 2 ^ 53)
      linarith
    have h2 : r * (1 - 1 / 2 ^ 51) ≤
        r * ((1 - 1 / 2 ^ 53) * (1 - 1 / 2 ^ 53)) * (1 - 1 / 2 ^ 53) := by
      rw [mul_assoc]
      exact mul_le_mul_of_nonneg_left (by norm_num) hr
    linarith
  · have h1 : S ≤ r * ((1 + 1 / 2 ^ 53) * (1 + 1 / 2 ^ 53)) * (1 + 1 / 2 ^ 53) := by
      have := mul_le_mul_of_nonneg_right hPk (by norm_num : (0 : ℚ) ≤ 1 + 1 / 2 ^ 53)
      linarith
    have h2 : r * ((1 + 1 / 2 ^ 53) * (1 + 1 / 2 ^ 53)) * (1 + 1 / 2 ^ 53) ≤
        r * (1 + 1 / 2 ^ 51) := by
      rw [mul_assoc]
      exact mul_le_mul_of_nonneg_left (by norm_num) hr
    linarith
/-! ## Line 183: the text of the number and the two substitutions -/

theorem digitChar_ne_percent (d : ℕ) (h : d < 10) : Nat.digitChar d ≠ '%' := by
  interval_cases d <;> decide

theorem repr_digit (d : ℕ) (h : d < 10) : Nat.repr d = String.singleton (Nat.digitChar d) := by
  interval_cases d <;> rfl

theorem toDigitsCore_no_percent (fuel n : ℕ) (ds : List Char) (h : '%' ∉ ds) :
    '%' ∉ Nat.toDigitsCore 10 fuel n ds := by
  induction fuel generalizing n ds with
  | zero => simpa [Nat.toDigitsCore] using h
  | succ f ih =>
    have hd : Nat.digitChar (n % 10) ≠ '%' := digitChar_ne_percent _ (Nat.mod_lt _ (by norm_num))
    have hcons : '%' ∉ Nat.digitChar (n % 10) :: ds := by
      simp only [List.mem_cons, not_or]
      exact ⟨fun e => hd e.symm, h⟩
    unfold Nat.toDigitsCore
    simp only
    split_ifs
    · exact hcons
    · exact ih _ _ hcons

theorem toDigitsCore_length_le (fuel n : ℕ) (ds : List Char) :
    ds.length ≤ (Nat.toDigitsCore 10 fuel n ds).length := by
  induction fuel generalizing n ds with
  | zero => simp [Nat.toDigitsCore]
  | succ f ih =>
    unfold Nat.toDigitsCore
    simp only
    split_ifs
    · simp
    · exact le_trans (by simp) (ih _ _)

theorem repr_no_percent (n : ℕ) : '%' ∉ (Nat.repr n).toList := by
  unfold Nat.repr Nat.toDigits
  simpa using toDigitsCore_no_percent (n + 1) n [] (by simp)

theorem repr_length_pos (n : ℕ) : 1 ≤ (Nat.repr n).length := by
  unfold Nat.repr Nat.toDigits Nat.toDigitsCore
  simp only
  split_ifs
  · simp
  · have := toDigitsCore_length_le n (n / 10) [Nat.digitChar (n % 10)]
    simpa using this

theorem length_le_count (s : QString) : s.length ≤ QString.count s := by
  have key : ∀ l : List Char, l.length ≤ (l.map utf16Units).sum := by
    intro l
    induction l with
    | nil => simp
    | cons c cs ih =>
      have : 1 ≤ utf16Units c := by
        unfold utf16Units
        split_ifs <;> omega
      simp only [List.map_cons, List.sum_cons, List.length_cons]
      omega
  exact key s.data

theorem padLeft_of_le (fieldWidth : ℕ) (a : QString) (h : fieldWidth ≤ QString.count a) :
    padLeft fieldWidth a = a := by
  unfold padLeft
  rw [Nat.sub_eq_zero_of_le h]
  apply String.ext
  simp

theorem padLeft_zero (a : QString) : padLeft 0 a = a :=
  padLeft_of_le 0 a (Nat.zero_le _)

theorem scanPieces_plain (a rest : List Char) (h : '%' ∉ a) :
    scanPieces 0 (a ++ rest) = a.map Piece.chr ++ scanPieces 0 rest := by
  induction a with
  | nil => simp
  | cons c cs ih =>
    have hc : c ≠ '%' := fun e => h (by simp [e])
    have hcs : '%' ∉ cs := fun e => h (by simp [e])
    have := ih hcs
    show scanPieces 0 (c :: (cs ++ rest)) = _
    simp only [scanPieces, if_neg hc, List.map_cons, List.cons_append]
    rw [this]

theorem markerNumbers_plain (a : List Char) (ps : List Piece) :
    markerNumbers (a.map Piece.chr ++ ps) = markerNumbers ps := by
  induction a with
  | nil => simp
  | cons c cs ih => simpa [markerNumbers] using ih

theorem fillPieces_plain (n : ℕ) (u a : List Char) (ps : List Piece) :
    fillPieces n u (a.map Piece.chr ++ ps) = a ++ fillPieces n u ps := by
  induction a with
  | nil => simp
  | cons c cs ih => simpa [fillPieces] using ih

/-- The first substitution of line 183: `%1` is replaced by the padded number. -/
theorem arg_first (a : QString) (fieldWidth : ℕ) :
    QString.arg "%1 %2" a fieldWidth = padLeft fieldWidth a ++ " %2" := by
  apply String.ext
  rfl

/-- The second substitution of line 183: `%2` is replaced by the unit. -/
theorem arg_second (a u : QString) (h : '%' ∉ a.toList) :
    QString.arg (a ++ " %2") u 0 = a ++ " " ++ u := by
  have hs : (a ++ " %2").toList = a.toList ++ [' ', '%', '2'] := by
    simp [String.toList]
  have hscan : scanPieces 0 [' ', '%', '2'] =
      [Piece.chr ' ', Piece.marker 2 ['%', '2']] := by decide
  unfold QString.arg
  rw [hs, scanPieces_plain _ _ h, markerNumbers_plain, hscan]
  simp only [markerNumbers, List.min?_cons, List.min?_nil, List.foldl_nil,
    fillPieces_plain, fillPieces, padLeft_zero, if_true]
  apply String.ext
  simp [String.toList]
theorem abs_roundHalfUp_sub_le {x : ℚ} (hx : 0 ≤ x) : |(roundHalfUp x : ℚ) - x| ≤ 1 / 2 := by
  unfold roundHalfUp
  have h0 : (0 : ℚ) ≤ x + 1 / 2 := by linarith
  have h1 := Nat.floor_le h0
  have h2 := Nat.lt_floor_add_one (x + 1 / 2)
  rw [abs_le]
  constructor <;> linarith

/-- Format `'f'` with one digit after the point, for a value that is not negative. -/
theorem toFixed_one (v : ℚ) :
    Double.toFixed 1 (Double.finite false v) =
      Nat.repr (roundHalfUp (v * 10) / 10) ++ "." ++
        String.singleton (Nat.digitChar (roundHalfUp (v * 10) % 10)) := by
  have hd : roundHalfUp (v * 10) % 10 < 10 := Nat.mod_lt _ (by norm_num)
  have hlen : (Nat.repr (roundHalfUp (v * 10) % 10)).length = 1 := by
    rw [repr_digit _ hd]
    rfl
  unfold Double.toFixed fixedDigits fractionDigits
  simp only [pow_one, hlen, Nat.sub_self, List.replicate_zero, Bool.false_eq_true, if_false,
    one_ne_zero]
  rw [repr_digit _ hd]
  apply String.ext
  simp

theorem toFixed_one_no_percent (v : ℚ) :
    '%' ∉ (Double.toFixed 1 (Double.finite false v)).toList := by
  rw [toFixed_one]
  have h1 := repr_no_percent (roundHalfUp (v * 10) / 10)
  have h2 := digitChar_ne_percent (roundHalfUp (v * 10) % 10) (Nat.mod_lt _ (by norm_num))
  simp only [String.toList] at h1
  simp only [String.toList, String.data_append, List.mem_append, not_or]
  refine ⟨⟨h1, by decide⟩, ?_⟩
  have hs : (String.singleton (Nat.digitChar (roundHalfUp (v * 10) % 10))).data =
      [Nat.digitChar (roundHalfUp (v * 10) % 10)] := rfl
  rw [hs, List.mem_singleton]
  exact fun e => h2 e.symm

theorem toFixed_one_count (v : ℚ) :
    3 ≤ QString.count (Double.toFixed 1 (Double.finite false v)) := by
  refine le_trans ?_ (length_le_count _)
  rw [toFixed_one]
  have h1 := repr_length_pos (roundHalfUp (v * 10) / 10)
  simp only [String.length_append]
  have h2 : (".": String).length = 1 := rfl
  have h3 : (String.singleton (Nat.digitChar (roundHalfUp (v * 10) % 10))).length = 1 := rfl
  omega

/-- Line 183 for a finite number that is not negative: the number in fixed-point form
with one digit after the point, never padded, one blank, the unit. -/
theorem label_finite (v : ℚ) (u : QString) :
    QString.arg (QString.argDouble "%1 %2" (Double.finite false v) 3 1) u 0 =
      Nat.repr (roundHalfUp (v * 10) / 10) ++ "." ++
        String.singleton (Nat.digitChar (roundHalfUp (v * 10) % 10)) ++ " " ++ u := by
  unfold QString.argDouble
  rw [arg_first, padLeft_of_le 3 _ (toFixed_one_count v),
    arg_second _ _ (toFixed_one_no_percent v), toFixed_one]

/-! ## Lines 172-181: the unit -/

theorem ofInt_1024 : Double.ofInt 1024 = Double.finite false 1024 := by
  have := ofInt_natCast 1024 (by norm_num)
  simpa using this

theorem ofInt_1048576 : Double.ofInt (1024 * 1024) = Double.finite false 1048576 := by
  have := ofInt_natCast 1048576 (by norm_num)
  simpa using this

theorem div_two_pow_exact {x : ℚ} (hx : 0 ≤ x) (j : ℕ)
    (h : 2 ^ j ≤ rndMag x) (hle : rndMag x ≤ 2 ^ 73) :
    Double.div (Double.finite false (rndMag x)) (Double.finite false (2 ^ j)) =
      Double.finite false (rndMag x / 2 ^ j) := by
  have hj0 : (2 : ℚ) ^ j ≠ 0 := by positivity
  have h1 : (1 : ℚ) ≤ 2 ^ j := one_le_pow₀ (by norm_num)
  have hq : rndMag x / 2 ^ j ≤ 2 ^ 73 := by
    rw [div_le_iff₀ (by positivity)]
    nlinarith
  have hq0 : 0 ≤ rndMag x / 2 ^ j := div_nonneg (rndMag_nonneg hx) (by positivity)
  unfold Double.div
  simp only [bne_self_eq_false, if_neg hj0]
  rw [round_of_le false hq0 73 (by norm_num) hq, rndMag_div_two_pow hx j h]

/-- Lines 172-181 on a finite, rounded, non-negative speed. -/
theorem throughput_finite {x : ℚ} (hx : 0 ≤ x) (hle : rndMag x ≤ 2 ^ 73) :
    MapleSeed.throughput (Double.finite false (rndMag x)) =
      if rndMag x < 1024 then (Double.finite false (rndMag x), "bytes/sec")
      else if rndMag x < 1048576 then (Double.finite false (rndMag x / 1024), "kB/s")
      else (Double.finite false (rndMag x / 1048576), "MB/s") := by
  unfold MapleSeed.throughput
  rw [ofInt_1024, ofInt_1048576]
  simp only [Double.lt, signed, Bool.false_eq_true, if_false, decide_eq_true_eq]
  by_cases h1 : rndMag x < 1024
  · simp only [if_pos h1]
  · simp only [if_neg h1]
    have h10 : (2 : ℚ) ^ 10 ≤ rndMag x := by norm_num; linarith
    by_cases h2 : rndMag x < 1048576
    · simp only [if_pos h2]
      have := div_two_pow_exact hx 10 h10 hle
      norm_num at this
      rw [this]
    · simp only [if_neg h2]
      have h20 : (2 : ℚ) ^ 20 ≤ rndMag x := by norm_num; linarith
      have := div_two_pow_exact hx 20 h20 hle
      norm_num at this
      rw [this]
theorem speedMag_le (n k : ℕ) (hn : n < 2 ^ 63) (hk0 : 0 < k) :
    rndMag (rndMag (rndMag (n : ℚ) * 1000) / k) ≤ 2 ^ 73 := by
  have hnq : (n : ℚ) ≤ 2 ^ 63 := by exact_mod_cast hn.le
  have hB : rndMag (n : ℚ) ≤ 2 ^ 63 := rndMag_le_two_pow (by positivity) 63 hnq
  have hB0 : 0 ≤ rndMag (n : ℚ) := rndMag_nonneg (by positivity)
  have hP : rndMag (rndMag (n : ℚ) * 1000) ≤ 2 ^ 73 :=
    rndMag_le_two_pow (by positivity) 73 (by linarith)
  have hP0 : 0 ≤ rndMag (rndMag (n : ℚ) * 1000) := rndMag_nonneg (by positivity)
  have hk1 : (1 : ℚ) ≤ k := by exact_mod_cast hk0
  have hQ : rndMag (rndMag (n : ℚ) * 1000) / k ≤ 2 ^ 73 := by
    rw [div_le_iff₀ (by linarith)]
    nlinarith
  exact rndMag_le_two_pow (div_nonneg hP0 (by linarith)) 73 hQ

/-- What lines 171-181 compute from non-negative byte counts and a positive elapsed time,
against the exact rate `r = n * 1000 / k`. -/
theorem throughput_by_rate (n k : ℕ) (hn : n < 2 ^ 63) (hk0 : 0 < k) (hk : k < 2147483648) :
    ∃ s : ℚ, MapleSeed.speed n k = Double.finite false s ∧
      |s - (n : ℚ) * 1000 / k| ≤ (n : ℚ) * 1000 / k / 2 ^ 51 ∧
      (n * 1000 < 2 ^ 53 → s = rndMag ((n : ℚ) * 1000 / k)) ∧
      MapleSeed.throughput (MapleSeed.speed n k) =
        if (n : ℚ) * 1000 / k < 1024 then (Double.finite false s, "bytes/sec")
        else if (n : ℚ) * 1000 / k < 1048576 then (Double.finite false (s / 1024), "kB/s")
        else (Double.finite false (s / 1048576), "MB/s") := by
  have hsp := speed_eq (n : ℤ) (k : ℤ) (by omega) (by norm_num; omega) (by omega)
    (by norm_num; omega)
  simp only [Int.cast_natCast] at hsp
  refine ⟨rndMag (rndMag (rndMag (n : ℚ) * 1000) / k), hsp, speedMag_rel_err n k hk0 hk,
    speedMag_exact n k, ?_⟩
  have hkq : (0 : ℚ) < k := by exact_mod_cast hk0
  have hx : (0 : ℚ) ≤ rndMag (rndMag (n : ℚ) * 1000) / k :=
    div_nonneg (rndMag_nonneg (mul_nonneg (rndMag_nonneg (by positivity)) (by norm_num)))
      hkq.le
  rw [hsp, throughput_finite hx (speedMag_le n k hn hk0)]
  have h1024 : rndMag ((1024 : ℕ) : ℚ) = ((1024 : ℕ) : ℚ) := rndMag_natCast 1024 (by norm_num)
  have h2p20 : rndMag ((1048576 : ℕ) : ℚ) = ((1048576 : ℕ) : ℚ) :=
    rndMag_natCast 1048576 (by norm_num)
  have e1 : (rndMag (rndMag (rndMag (n : ℚ) * 1000) / k) < 1024) ↔
      ((n : ℚ) * 1000 / k < 1024) := by
    constructor
    · intro h
      by_contra hc
      have := speedMag_ge n k 1024 hk0 hk (by norm_num) h1024 (by push_cast; linarith)
      push_cast at this
      linarith
    · intro h
      have := speedMag_lt n k 1024 hk0 hk (by norm_num) (by norm_num) (by push_cast; linarith)
      push_cast at this
      exact this
  have e2 : (rndMag (rndMag (rndMag (n : ℚ) * 1000) / k) < 1048576) ↔
      ((n : ℚ) * 1000 / k < 1048576) := by
    constructor
    · intro h
      by_contra hc
      have := speedMag_ge n k 1048576 hk0 hk (by norm_num) h2p20 (by push_cast; linarith)
      push_cast at this
      linarith
    · intro h
      have := speedMag_lt n k 1048576 hk0 hk (by norm_num) (by norm_num)
        (by push_cast; linarith)
      push_cast at this
      exact this
  simp only [e1, e2]

/-- C3. For every progress event with `0 ≤ bytesReceived` and `0 < elapsed` (both in the
range of their C++ types), `updateProgress` computes the rate
`r = bytesReceived * 1000 / elapsed` as the double `s` (within relative error `2 ^ (-51)`
of `r`, and the correctly rounded `r` when `bytesReceived * 1000 < 2 ^ 53`) and picks the
unit by the magnitude of the rate alone: "bytes/sec" exactly when `r < 1024`, showing `s`;
"kB/s" exactly when `1024 ≤ r < 1024 ^ 2`, showing `s / 1024`; "MB/s" exactly when
`r ≥ 1024 ^ 2`, showing `s / 1024 ^ 2`. -/
theorem updateProgress_unit_by_rate (bytesReceived bytesTotal elapsed : ℤ) (w : MapleSeed)
    (hb0 : 0 ≤ bytesReceived) (hb : bytesReceived < 2 ^ 63)
    (he0 : 0 < elapsed) (he : elapsed < 2 ^ 31) :
    ∃ s : ℚ,
      MapleSeed.speed bytesReceived elapsed = Double.finite false s ∧
      |s - (bytesReceived : ℚ) * 1000 / elapsed| ≤
        (bytesReceived : ℚ) * 1000 / elapsed / 2 ^ 51 ∧
      (bytesReceived * 1000 < 2 ^ 53 → s = rndMag ((bytesReceived : ℚ) * 1000 / elapsed)) ∧
      ((MapleSeed.throughput (MapleSeed.speed bytesReceived elapsed)).2 = "bytes/sec" ↔
        (bytesReceived : ℚ) * 1000 / elapsed < 1024) ∧
      ((MapleSeed.throughput (MapleSeed.speed bytesReceived elapsed)).2 = "kB/s" ↔
        1024 ≤ (bytesReceived : ℚ) * 1000 / elapsed ∧
          (bytesReceived : ℚ) * 1000 / elapsed < 1024 ^ 2) ∧
      ((MapleSeed.throughput (MapleSeed.speed bytesReceived elapsed)).2 = "MB/s" ↔
        1024 ^ 2 ≤ (bytesReceived : ℚ) * 1000 / elapsed) ∧
      ((bytesReceived : ℚ) * 1000 / elapsed < 1024 →
        (MapleSeed.throughput (MapleSeed.speed bytesReceived elapsed)).1 =
          Double.finite false s) ∧
      (1024 ≤ (bytesReceived : ℚ) * 1000 / elapsed ∧
          (bytesReceived : ℚ) * 1000 / elapsed < 1024 ^ 2 →
        (MapleSeed.throughput (MapleSeed.speed bytesReceived elapsed)).1 =
          Double.finite false (s / 1024)) ∧
      (1024 ^ 2 ≤ (bytesReceived : ℚ) * 1000 / elapsed →
        (MapleSeed.throughput (MapleSeed.speed bytesReceived elapsed)).1 =
          Double.finite false (s / 1024 ^ 2)) ∧
      newCalls w (MapleSeed.updateProgress bytesReceived bytesTotal elapsed w) =
        [Call.setRange 0 (toInt32 bytesTotal), Call.setValue (toInt32 bytesReceived),
          Call.setFormat ("%p%   /   " ++
            QString.arg
              (QString.argDouble "%1 %2"
                (MapleSeed.throughput (MapleSeed.speed bytesReceived elapsed)).1 3 1)
              (MapleSeed.throughput (MapleSeed.speed bytesReceived elapsed)).2 0)] := by
  obtain ⟨n, rfl⟩ := Int.eq_ofNat_of_zero_le hb0
  obtain ⟨k, rfl⟩ := Int.eq_ofNat_of_zero_le he0.le
  obtain ⟨s, hs, herr, hexact, hthr⟩ :=
    throughput_by_rate n k (by omega) (by omega) (by norm_num at he; omega)
  simp only [Int.cast_natCast]
  refine ⟨s, hs, herr, ?_, ?_⟩
  · intro h
    exact hexact (by exact_mod_cast h)
  rw [hthr]
  have hcalls : newCalls w (MapleSeed.updateProgress (n : ℤ) bytesTotal (k : ℤ) w) =
      [Call.setRange 0 (toInt32 bytesTotal), Call.setValue (toInt32 (n : ℤ)),
        Call.setFormat ("%p%   /   " ++ MapleSeed.throughputLabel (n : ℤ) (k : ℤ))] :=
    newCalls_call3 _ _ _ _
  rw [hcalls]
  unfold MapleSeed.throughputLabel
  rw [hthr]
  by_cases h1 : (n : ℚ) * 1000 / k < 1024
  · have h2 : ¬ (1024 ^ 2 ≤ (n : ℚ) * 1000 / k) := by norm_num; linarith
    have h3 : ¬ (1024 ≤ (n : ℚ) * 1000 / k) := by linarith
    simp [h1, h2, h3]
  · by_cases h2 : (n : ℚ) * 1000 / k < 1048576
    · have h3 : ¬ (1024 ^ 2 ≤ (n : ℚ) * 1000 / k) := by norm_num; linarith
      have h4 : 1024 ≤ (n : ℚ) * 1000 / k := by linarith
      have h5 : (n : ℚ) * 1000 / k < 1024 ^ 2 := by norm_num; linarith
      simp [h1, h2, h3, h4, h5]
    · have h3 : 1024 ^ 2 ≤ (n : ℚ) * 1000 / k := by norm_num; linarith
      have h4 : ¬ ((n : ℚ) * 1000 / k < 1024 ^ 2) := by norm_num; linarith
      have h5 : 1024 ≤ (n : ℚ) * 1000 / k := by linarith
      simp [h1, h2, h3, h4, h5]
      norm_num

/-- C3 at 2048 bytes received after 1000 ms: the rate is 2048 bytes per second and the unit
is "kB/s". -/
theorem updateProgress_unit_by_rate_witness :
    (0 : ℤ) ≤ 2048 ∧ (2048 : ℤ) < 2 ^ 63 ∧ (0 : ℤ) < 1000 ∧ (1000 : ℤ) < 2 ^ 31 ∧
    (MapleSeed.throughput (MapleSeed.speed 2048 1000)).2 = "kB/s" ∧
    (MapleSeed.throughput (MapleSeed.speed 2048 1000)).1 = Double.finite false 2 := by
  refine ⟨by norm_num, by norm_num, by norm_num, by norm_num, ?_⟩
  obtain ⟨s, -, -, hs, -, hu, -, -, hv, -, -⟩ :=
    updateProgress_unit_by_rate 2048 4096 1000 sampleWindow (by norm_num) (by norm_num)
      (by norm_num) (by norm_num)
  have hr : ((2048 : ℤ) : ℚ) * 1000 / ((1000 : ℤ) : ℚ) = ((2048 : ℕ) : ℚ) := by norm_num
  have hs2 : s = 2048 := by
    have := hs (by norm_num)
    rw [hr, rndMag_natCast 2048 (by norm_num)] at this
    rw [this]
    norm_num
  refine ⟨hu.2 ⟨by norm_num, by norm_num⟩, ?_⟩
  rw [hv ⟨by norm_num, by norm_num⟩, hs2]
  norm_num
/-! ## Negative byte counts and signed numbers -/

/-- Line 171 for a negative byte count: the speed is negative, of the magnitude computed
from the absolute value. -/
theorem speed_neg (n k : ℕ) (hn0 : 0 < n) (hn : n ≤ 2 ^ 63) (hk0 : 0 < k)
    (hk : k < 2147483648) :
    MapleSeed.speed (-(n : ℤ)) k =
      Double.finite true (rndMag (rndMag (rndMag (n : ℚ) * 1000) / k)) := by
  have hk53 : k < 2 ^ 53 := by norm_num; omega
  have hkq0 : (k : ℚ) ≠ 0 := by
    have : (0 : ℚ) < k := by exact_mod_cast hk0
    exact this.ne.symm
  have hnq : (n : ℚ) ≤ 2 ^ 63 := by exact_mod_cast hn
  have hB : rndMag (n : ℚ) ≤ 2 ^ 63 := rndMag_le_two_pow (by positivity) 63 hnq
  have hB0 : 0 ≤ rndMag (n : ℚ) := rndMag_nonneg (by positivity)
  have hP : rndMag (rndMag (n : ℚ) * 1000) ≤ 2 ^ 73 :=
    rndMag_le_two_pow (by positivity) 73 (by linarith)
  have hP0 : 0 ≤ rndMag (rndMag (n : ℚ) * 1000) := rndMag_nonneg (by positivity)
  have hk1 : (1 : ℚ) ≤ k := by exact_mod_cast hk0
  have hQ : rndMag (rndMag (n : ℚ) * 1000) / k ≤ 2 ^ 73 := by
    rw [div_le_iff₀ (by linarith)]
    nlinarith
  unfold MapleSeed.speed
  rw [ofInt_natCast k hk53]
  unfold Double.ofInt
  have h0 : |((-(n : ℤ) : ℤ) : ℚ)| = (n : ℚ) := by simp
  have hlt : (-(n : ℤ)) < 0 := by omega
  rw [h0, decide_eq_true hlt, round_of_le true (by positivity) 63 (by norm_num) hnq]
  unfold Double.mul
  simp only [Bool.bne_false]
  rw [round_of_le true (by positivity) 73 (by norm_num) (by linarith)]
  unfold Double.div
  simp only [Bool.bne_false, if_neg hkq0]
  rw [round_of_le true (by positivity) 73 (by norm_num) hQ]

/-- Lines 172-181 on a negative speed: it is below 1024, and shown in bytes per second. -/
theorem throughput_neg {v : ℚ} (hv : 0 ≤ v) :
    MapleSeed.throughput (Double.finite true v) = (Double.finite true v, "bytes/sec") := by
  have h : signed true v < signed false 1024 := by
    simp only [signed, if_true, Bool.false_eq_true, if_false]
    linarith
  have hlt : Double.lt (Double.finite true v) (Double.finite false 1024) = true := by
    show decide (signed true v < signed false 1024) = true
    exact decide_eq_true h
  unfold MapleSeed.throughput
  rw [ofInt_1024, ofInt_1048576, if_pos hlt]

/-- The sign written before a finite number: a minus for a negative value other than
zero. -/
theorem toFixed_signed (neg : Bool) (v : ℚ) :
    Double.toFixed 1 (Double.finite neg v) =
      (if neg && decide (v ≠ 0) then "-" else "") ++
        Double.toFixed 1 (Double.finite false v) := by
  unfold Double.toFixed
  simp only [Bool.false_and, Bool.false_eq_true, if_false]
  split_ifs
  · apply String.ext
    simp
  · apply String.ext
    simp

/-- Line 183 for a finite number of either sign. -/
theorem label_signed (neg : Bool) (v : ℚ) (u : QString) :
    QString.arg (QString.argDouble "%1 %2" (Double.finite neg v) 3 1) u 0 =
      (if neg && decide (v ≠ 0) then "-" else "") ++
        Nat.repr (roundHalfUp (v * 10) / 10) ++ "." ++
        String.singleton (Nat.digitChar (roundHalfUp (v * 10) % 10)) ++ " " ++ u := by
  have hcount : 3 ≤ QString.count (Double.toFixed 1 (Double.finite neg v)) := by
    have h1 := toFixed_one_count v
    rw [toFixed_signed]
    unfold QString.count at h1 ⊢
    simp only [String.toList, String.data_append, List.map_append, List.sum_append]
    simp only [String.toList] at h1
    omega
  have hpercent : '%' ∉ (Double.toFixed 1 (Double.finite neg v)).toList := by
    have h1 := toFixed_one_no_percent v
    rw [toFixed_signed]
    simp only [String.toList] at h1
    simp only [String.toList, String.data_append, List.mem_append, not_or]
    refine ⟨?_, h1⟩
    split_ifs <;> decide
  unfold QString.argDouble
  rw [arg_first, padLeft_of_le 3 _ hcount, arg_second _ _ hpercent, toFixed_signed,
    toFixed_one]
  apply String.ext
  simp [String.data_append, List.append_assoc]

/-! ## Labels of whole rates -/

theorem roundHalfUp_natCast (n : ℕ) : roundHalfUp (n : ℚ) = n := by
  unfold roundHalfUp
  rw [Nat.floor_eq_iff (by positivity)]
  constructor <;> norm_num

/-- Line 171 when the rate is a whole number `q` of bytes per second. -/
theorem speed_whole (n k q : ℕ) (hk0 : 0 < k) (hk : k < 2147483648)
    (hn : n * 1000 < 2 ^ 53) (h : n * 1000 = q * k) :
    MapleSeed.speed n k = Double.finite false q := by
  have hsp := speed_eq (n : ℤ) (k : ℤ) (by omega) (by norm_num; norm_num at hn; omega)
    (by omega) (by norm_num; omega)
  simp only [Int.cast_natCast] at hsp
  have hkq : (k : ℚ) ≠ 0 := by
    have : (0 : ℚ) < k := by exact_mod_cast hk0
    exact this.ne.symm
  have hq : (n : ℚ) * 1000 / k = q := by
    rw [div_eq_iff hkq]
    exact_mod_cast h
  have hqlt : q < 2 ^ 53 := by
    have : q ≤ q * k := Nat.le_mul_of_pos_right q hk0
    omega
  rw [hsp, speedMag_exact n k hn, hq, rndMag_natCast q hqlt]

/-- Lines 172-181 on a whole number of bytes per second. -/
theorem throughput_whole (q : ℕ) (hq : q < 2 ^ 53) :
    MapleSeed.throughput (Double.finite false q) =
      if (q : ℚ) < 1024 then (Double.finite false q, "bytes/sec")
      else if (q : ℚ) < 1048576 then (Double.finite false ((q : ℚ) / 1024), "kB/s")
      else (Double.finite false ((q : ℚ) / 1048576), "MB/s") := by
  have hr := rndMag_natCast q hq
  have hle : rndMag (q : ℚ) ≤ 2 ^ 73 := by
    rw [hr]
    have : q ≤ 2 ^ 73 := by
      norm_num
      norm_num at hq
      omega
    exact_mod_cast this
  have := throughput_finite (x := (q : ℚ)) (by positivity) hle
  rw [hr] at this
  exact this

theorem label_500 : MapleSeed.throughputLabel 500 1000 = "500.0 bytes/sec" := by
  have hs : MapleSeed.speed ((500 : ℕ) : ℤ) ((1000 : ℕ) : ℤ) = Double.finite false (500 : ℕ) :=
    speed_whole 500 1000 500 (by norm_num) (by norm_num) (by norm_num) (by norm_num)
  have ht := throughput_whole 500 (by norm_num)
  norm_num at hs ht
  unfold MapleSeed.throughputLabel
  rw [hs, ht, label_finite]
  have : ((500 : ℚ) * 10) = ((5000 : ℕ) : ℚ) := by norm_num
  rw [this, roundHalfUp_natCast]
  decide

theorem label_2048 : MapleSeed.throughputLabel 2048 1000 = "2.0 kB/s" := by
  have hs : MapleSeed.speed ((2048 : ℕ) : ℤ) ((1000 : ℕ) : ℤ) = Double.finite false (2048 : ℕ) :=
    speed_whole 2048 1000 2048 (by norm_num) (by norm_num) (by norm_num) (by norm_num)
  have ht := throughput_whole 2048 (by norm_num)
  norm_num at hs ht
  unfold MapleSeed.throughputLabel
  rw [hs, ht, label_finite]
  have : ((2 : ℚ) * 10) = ((20 : ℕ) : ℚ) := by norm_num
  rw [this, roundHalfUp_natCast]
  decide

theorem label_2MiB : MapleSeed.throughputLabel (2 * 1024 * 1024) 1000 = "2.0 MB/s" := by
  have hs : MapleSeed.speed ((2097152 : ℕ) : ℤ) ((1000 : ℕ) : ℤ) =
      Double.finite false (2097152 : ℕ) :=
    speed_whole 2097152 1000 2097152 (by norm_num) (by norm_num) (by norm_num) (by norm_num)
  have ht := throughput_whole 2097152 (by norm_num)
  norm_num at hs ht
  unfold MapleSeed.throughputLabel
  norm_num
  rw [hs, ht, label_finite]
  have : ((2 : ℚ) * 10) = ((20 : ℕ) : ℚ) := by norm_num
  rw [this, roundHalfUp_natCast]
  decide

/-- C4. For every progress event with `0 < elapsed` (byte count and elapsed time in the
range of their C++ types), the throughput label that `updateProgress` puts into the format
of the progress bar is the scaled rate in fixed-point form with exactly one digit after
the decimal point (the tenth `t / 10` nearest to its magnitude `v`, after a minus sign when
the rate is negative, which it is for no byte count `≥ 0`), one blank, and the unit;
500 bytes in 1000 ms give "500.0 bytes/sec", 2048 bytes in 1000 ms give "2.0 kB/s", and
`2 * 1024 * 1024` bytes in 1000 ms give "2.0 MB/s". -/
theorem updateProgress_label_fixed_point (bytesReceived bytesTotal elapsed : ℤ)
    (w : MapleSeed) (hb0 : -2 ^ 63 ≤ bytesReceived) (hb : bytesReceived < 2 ^ 63)
    (he0 : 0 < elapsed) (he : elapsed < 2 ^ 31) :
    (∃ (neg : Bool) (v : ℚ) (t : ℕ),
      (MapleSeed.throughput (MapleSeed.speed bytesReceived elapsed)).1 =
        Double.finite neg v ∧
      0 ≤ v ∧ (0 ≤ bytesReceived → neg = false) ∧
      |(t : ℚ) / 10 - v| ≤ 1 / 20 ∧
      MapleSeed.throughputLabel bytesReceived elapsed =
        (if neg && decide (v ≠ 0) then "-" else "") ++
          Nat.repr (t / 10) ++ "." ++ String.singleton (Nat.digitChar (t % 10)) ++ " " ++
          (MapleSeed.throughput (MapleSeed.speed bytesReceived elapsed)).2) ∧
    newCalls w (MapleSeed.updateProgress bytesReceived bytesTotal elapsed w) =
      [Call.setRange 0 (toInt32 bytesTotal), Call.setValue (toInt32 bytesReceived),
        Call.setFormat ("%p%   /   " ++ MapleSeed.throughputLabel bytesReceived elapsed)] ∧
    MapleSeed.throughputLabel 500 1000 = "500.0 bytes/sec" ∧
    MapleSeed.throughputLabel 2048 1000 = "2.0 kB/s" ∧
    MapleSeed.throughputLabel (2 * 1024 * 1024) 1000 = "2.0 MB/s" := by
  refine ⟨?_, newCalls_call3 _ _ _ _, label_500, label_2048, label_2MiB⟩
  obtain ⟨k, rfl⟩ := Int.eq_ofNat_of_zero_le he0.le
  have hk0 : 0 < k := by omega
  have hk : k < 2147483648 := by norm_num at he; omega
  have key : ∀ (b : ℤ) (neg : Bool) (v : ℚ) (u : QString), 0 ≤ v → (0 ≤ b → neg = false) →
      MapleSeed.throughput (MapleSeed.speed b (k : ℤ)) = (Double.finite neg v, u) →
      ∃ (neg' : Bool) (v' : ℚ) (t : ℕ),
        (MapleSeed.throughput (MapleSeed.speed b (k : ℤ))).1 = Double.finite neg' v' ∧
        0 ≤ v' ∧ (0 ≤ b → neg' = false) ∧
        |(t : ℚ) / 10 - v'| ≤ 1 / 20 ∧
        MapleSeed.throughputLabel b (k : ℤ) =
          (if neg' && decide (v' ≠ 0) then "-" else "") ++
            Nat.repr (t / 10) ++ "." ++ String.singleton (Nat.digitChar (t % 10)) ++ " " ++
            (MapleSeed.throughput (MapleSeed.speed b (k : ℤ))).2 := by
    intro b neg v u hv hneg hvu
    refine ⟨neg, v, roundHalfUp (v * 10), by rw [hvu], hv, hneg, ?_, ?_⟩
    · have := abs_roundHalfUp_sub_le (x := v * 10) (by positivity)
      rw [abs_le] at this ⊢
      constructor <;> linarith
    · unfold MapleSeed.throughputLabel
      rw [hvu, label_signed]
  rcases lt_or_le bytesReceived 0 with hlt | hge
  · obtain ⟨n, hn⟩ : ∃ n : ℕ, bytesReceived = -(n : ℤ) :=
      ⟨bytesReceived.natAbs, by omega⟩
    subst hn
    have hn0 : 0 < n := by omega
    have hn63 : n ≤ 2 ^ 63 := by norm_num at hb0 ⊢; omega
    have hs := speed_neg n k hn0 hn63 hk0 hk
    have hv0 : (0 : ℚ) ≤ rndMag (rndMag (rndMag (n : ℚ) * 1000) / k) :=
      rndMag_nonneg (div_nonneg
        (rndMag_nonneg (mul_nonneg (rndMag_nonneg (by positivity)) (by norm_num)))
        (by positivity))
    exact key _ true _ "bytes/sec" hv0 (fun h => absurd h (by omega))
      (by rw [hs, throughput_neg hv0])
  · obtain ⟨n, rfl⟩ := Int.eq_ofNat_of_zero_le hge
    obtain ⟨s, hs, herr, -, hthr⟩ := throughput_by_rate n k (by omega) hk0 hk
    have hs0 : 0 ≤ s := by
      have hr : (0 : ℚ) ≤ (n : ℚ) * 1000 / k := by positivity
      have h51 : (n : ℚ) * 1000 / k / 2 ^ 51 ≤ (n : ℚ) * 1000 / k :=
        div_le_self hr (by norm_num)
      have := (abs_le.1 herr).1
      linarith
    split_ifs at hthr
    · exact key _ false s _ hs0 (fun _ => rfl) hthr
    · exact key _ false (s / 1024) _ (by positivity) (fun _ => rfl) hthr
    · exact key _ false (s / 1048576) _ (by positivity) (fun _ => rfl) hthr

/-- C4 at one byte received after 3 ms. -/
theorem updateProgress_label_fixed_point_witness :
    -2 ^ 63 ≤ (1 : ℤ) ∧ (1 : ℤ) < 2 ^ 63 ∧ (0 : ℤ) < 3 ∧ (3 : ℤ) < 2 ^ 31 ∧
    ∃ (neg : Bool) (v : ℚ) (t : ℕ),
      (MapleSeed.throughput (MapleSeed.speed 1 3)).1 = Double.finite neg v ∧
      0 ≤ v ∧ ((0 : ℤ) ≤ 1 → neg = false) ∧
      |(t : ℚ) / 10 - v| ≤ 1 / 20 ∧
      MapleSeed.throughputLabel 1 3 =
        (if neg && decide (v ≠ 0) then "-" else "") ++
          Nat.repr (t / 10) ++ "." ++ String.singleton (Nat.digitChar (t % 10)) ++ " " ++
          (MapleSeed.throughput (MapleSeed.speed 1 3)).2 :=
  ⟨by norm_num, by norm_num, by norm_num, by norm_num,
    (updateProgress_label_fixed_point 1 2 3 sampleWindow (by norm_num) (by norm_num)
      (by norm_num) (by norm_num)).1⟩

/-! ## startDownload -/

theorem count_of_hex (l : List Char) (h : ∀ c ∈ l, isHexChar c = true) :
    (l.map utf16Units).sum = l.length := by
  induction l with
  | nil => simp
  | cons c cs ih =>
    have hc : isHexChar c = true := h c (by simp)
    have hu : utf16Units c = 1 := by
      unfold isHexChar at hc
      unfold utf16Units
      simp only [Bool.or_eq_true, Bool.and_eq_true, decide_eq_true_eq] at hc
      rw [if_pos (by omega)]
    have := ih (fun c hc => h c (by simp [hc]))
    simp only [List.map_cons, List.sum_cons, List.length_cons, hu, this]
    omega

theorem startDownload_of_count (DownloadCreate : QString → QString → Acquisition)
    (text : QString) (w : MapleSeed) (h : QString.count text = 16) :
    MapleSeed.startDownload DownloadCreate true text w =
      (w.call (Call.DownloadCreate text w.gameLibrary.baseDirectory)).call
        (Call.decryptContent (DownloadCreate text w.gameLibrary.baseDirectory).record) := by
  unfold MapleSeed.startDownload QString.isEmpty
  simp [h]

/-- C1, counterexample. The string "000500001010010G" has 16 characters, the last of which
is not hexadecimal, yet `startDownload` does not reject it: no message is shown and
`TitleInfo::DownloadCreate` and `decryptContent` are both invoked. -/
theorem startDownload_accepts_non_hex :
    isHexChar 'G' = false ∧ 'G' ∈ "000500001010010G".toList ∧
    QString.count "000500001010010G" = 16 ∧
    newCalls sampleWindow
        (MapleSeed.startDownload failingDownloadCreate true "000500001010010G" sampleWindow) =
      [Call.DownloadCreate "000500001010010G" "/library",
        Call.decryptContent
          { id := "000500001010010G", formatName := "000500001010010G", coverArt := "" }] := by
  refine ⟨by decide, by decide, by decide, ?_⟩
  rw [startDownload_of_count _ _ _ (by decide), newCalls_call2]
  rfl

/-- C1, amended. For every string the user confirms whose length (`QString::count`) is not
16, `startDownload` rejects it with the invalid-title-id message and invokes neither
`TitleInfo::DownloadCreate` nor `decryptContent`: the message box is its only call. -/
theorem startDownload_rejects_wrong_length (DownloadCreate : QString → QString → Acquisition)
    (text : QString) (w : MapleSeed) (h : QString.count text ≠ 16) :
    MapleSeed.startDownload DownloadCreate true text w =
        w.call (Call.information "Download Title Error"
          "Invalid title id. Please verify your title id is 16 characters") ∧
    newCalls w (MapleSeed.startDownload DownloadCreate true text w) =
      [Call.information "Download Title Error"
        "Invalid title id. Please verify your title id is 16 characters"] := by
  have key : MapleSeed.startDownload DownloadCreate true text w =
      w.call (Call.information "Download Title Error"
        "Invalid title id. Please verify your title id is 16 characters") := by
    unfold MapleSeed.startDownload
    simp [h]
  exact ⟨key, by rw [key, newCalls_call]⟩

/-- C1, amended, at the 15-character string "000500001010010". -/
theorem startDownload_rejects_wrong_length_witness :
    QString.count "000500001010010" ≠ 16 ∧
    newCalls sampleWindow
        (MapleSeed.startDownload failingDownloadCreate true "000500001010010" sampleWindow) =
      [Call.information "Download Title Error"
        "Invalid title id. Please verify your title id is 16 characters"] :=
  ⟨by decide,
    (startDownload_rejects_wrong_length failingDownloadCreate "000500001010010" sampleWindow
      (by decide)).2⟩

/-- C2. For every string of exactly 16 hexadecimal characters confirmed in the dialog,
`startDownload` raises no invalid-title-id message and calls `TitleInfo::DownloadCreate`
exactly once, with that string unchanged and the library's current base directory (and
then `decryptContent` on the record returned). -/
theorem startDownload_accepts_hex16 (DownloadCreate : QString → QString → Acquisition)
    (text : QString) (w : MapleSeed) (hlen : text.length = 16)
    (hhex : ∀ c ∈ text.toList, isHexChar c = true) :
    newCalls w (MapleSeed.startDownload DownloadCreate true text w) =
      [Call.DownloadCreate text w.gameLibrary.baseDirectory,
        Call.decryptContent (DownloadCreate text w.gameLibrary.baseDirectory).record] := by
  have hc : QString.count text = 16 := by
    unfold QString.count
    rw [count_of_hex _ hhex]
    exact hlen
  rw [startDownload_of_count _ _ _ hc, newCalls_call2]

/-- C2 at the title id "0005000010100100". -/
theorem startDownload_accepts_hex16_witness :
    newCalls sampleWindow
        (MapleSeed.startDownload failingDownloadCreate true "0005000010100100" sampleWindow) =
      [Call.DownloadCreate "0005000010100100" "/library",
        Call.decryptContent
          { id := "0005000010100100", formatName := "0005000010100100", coverArt := "" }] :=
  startDownload_accepts_hex16 failingDownloadCreate "0005000010100100" sampleWindow
    (by decide) (by decide)

/-- C7, counterexample. With a `TitleInfo::DownloadCreate` whose acquisition ends in
failure, `startDownload` still invokes `decryptContent` on the title. -/
theorem startDownload_decrypts_after_failure :
    (failingDownloadCreate "0005000010100100" "/library").status =
      TransferStatus.failed "connection error" ∧
    Call.decryptContent (failingDownloadCreate "0005000010100100" "/library").record ∈
      newCalls sampleWindow
        (MapleSeed.startDownload failingDownloadCreate true "0005000010100100"
          sampleWindow) := by
  refine ⟨rfl, ?_⟩
  rw [startDownload_of_count _ _ _ (by decide), newCalls_call2]
  simp [sampleWindow]

/-- C7, amended. For every accepted title id (16 `QChar`s), `startDownload` calls
`TitleInfo::DownloadCreate` and then invokes `decryptContent` on the record returned,
exactly once, whatever status the acquisition ends in. -/
theorem startDownload_decrypts_whatever_status
    (DownloadCreate : QString → QString → Acquisition) (status : TransferStatus)
    (text : QString) (w : MapleSeed) (h : QString.count text = 16) :
    newCalls w
        (MapleSeed.startDownload
          (fun titleId dir => { record := (DownloadCreate titleId dir).record, status := status })
          true text w) =
      [Call.DownloadCreate text w.gameLibrary.baseDirectory,
        Call.decryptContent (DownloadCreate text w.gameLibrary.baseDirectory).record] := by
  rw [startDownload_of_count _ _ _ h, newCalls_call2]

/-- C7, amended, at the title id "0005000010100100" and a failed acquisition. -/
theorem startDownload_decrypts_whatever_status_witness :
    newCalls sampleWindow
        (MapleSeed.startDownload
          (fun titleId dir =>
            { record := (failingDownloadCreate titleId dir).record,
              status := TransferStatus.failed "size mismatch" })
          true "0005000010100100" sampleWindow) =
      [Call.DownloadCreate "0005000010100100" sampleWindow.gameLibrary.baseDirectory,
        Call.decryptContent
          (failingDownloadCreate "0005000010100100"
            sampleWindow.gameLibrary.baseDirectory).record] :=
  startDownload_decrypts_whatever_status failingDownloadCreate
    (TransferStatus.failed "size mismatch") "0005000010100100" sampleWindow (by decide)
/-! ## decryptContent -/

theorem filePath_absolute (dir : QDir) (fileName : QString)
    (h : QDir.isAbsolutePath fileName = true) : dir.filePath fileName = fileName := by
  unfold QDir.filePath
  rw [if_pos h]

/-- C5. For every directory the user selects, `decryptContent` invokes `Decrypt::start`,
on that directory, if and only if both files `tmd` and `cetk` exist in it; when `tmd` is
absent (whether or not `cetk` is) it only reports the missing file `/tmd`, when only
`cetk` is absent it only reports the missing file `/cetk`, and in neither case is
`Decrypt::start` called. -/
theorem decryptContent_requires_tmd_and_cetk (fileExists : QString → Bool) (dir : QDir)
    (w : MapleSeed) :
    (∀ p, Call.decryptStart p ∈
        newCalls w (MapleSeed.decryptContent fileExists (some dir) w) ↔
      p = dir.path ∧ fileExists (dir.filePath "tmd") = true ∧
        fileExists (dir.filePath "cetk") = true) ∧
    (fileExists (dir.filePath "tmd") = true ∧ fileExists (dir.filePath "cetk") = true →
      newCalls w (MapleSeed.decryptContent fileExists (some dir) w) =
        [Call.showMessage ("Decrypt directory: " ++ dir.path), Call.decryptStart dir.path,
          Call.showMessage ("Decrypt complete: " ++ dir.path)]) ∧
    (fileExists (dir.filePath "tmd") = false →
      newCalls w (MapleSeed.decryptContent fileExists (some dir) w) =
        [Call.critical "Missing file" ("Missing: " ++ dir.filePath "/tmd")]) ∧
    (fileExists (dir.filePath "tmd") = true ∧ fileExists (dir.filePath "cetk") = false →
      newCalls w (MapleSeed.decryptContent fileExists (some dir) w) =
        [Call.critical "Missing file" ("Missing: " ++ dir.filePath "/cetk")]) ∧
    dir.filePath "/tmd" = "/tmd" ∧ dir.filePath "/cetk" = "/cetk" := by
  have hA : fileExists (dir.filePath "tmd") = true ∧ fileExists (dir.filePath "cetk") = true →
      newCalls w (MapleSeed.decryptContent fileExists (some dir) w) =
        [Call.showMessage ("Decrypt directory: " ++ dir.path), Call.decryptStart dir.path,
          Call.showMessage ("Decrypt complete: " ++ dir.path)] := by
    rintro ⟨h1, h2⟩
    unfold MapleSeed.decryptContent
    simp only [h1, h2, Bool.not_true, Bool.false_eq_true, if_false]
    exact newCalls_call3 _ _ _ _
  have hB : fileExists (dir.filePath "tmd") = false →
      newCalls w (MapleSeed.decryptContent fileExists (some dir) w) =
        [Call.critical "Missing file" ("Missing: " ++ dir.filePath "/tmd")] := by
    intro h1
    unfold MapleSeed.decryptContent
    simp only [h1, Bool.not_false, if_true]
    exact newCalls_call _ _
  have hC : fileExists (dir.filePath "tmd") = true ∧ fileExists (dir.filePath "cetk") = false →
      newCalls w (MapleSeed.decryptContent fileExists (some dir) w) =
        [Call.critical "Missing file" ("Missing: " ++ dir.filePath "/cetk")] := by
    rintro ⟨h1, h2⟩
    unfold MapleSeed.decryptContent
    simp only [h1, h2, Bool.not_true, Bool.false_eq_true, if_false, Bool.not_false, if_true]
    exact newCalls_call _ _
  refine ⟨?_, hA, hB, hC, filePath_absolute _ _ (by decide), filePath_absolute _ _ (by decide)⟩
  intro p
  cases h1 : fileExists (dir.filePath "tmd")
  · rw [hB h1]
    simp
  · cases h2 : fileExists (dir.filePath "cetk")
    · rw [hC ⟨h1, h2⟩]
      simp
    · rw [hA ⟨h1, h2⟩]
      simp

/-! ## The range of the progress bar -/

/-- C6, at the failing input. A progress event of 1 GiB received out of 3 GiB, one second
after the start: the progress bar is given the range `[0, -1073741824]`, not
`[0, 3221225472]`. -/
theorem updateProgress_wraps_large_total :
    0 ≤ (1073741824 : ℤ) ∧ (1073741824 : ℤ) ≤ 3221225472 ∧ (3221225472 : ℤ) < 2 ^ 63 ∧
    newCalls sampleWindow
        (MapleSeed.updateProgress 1073741824 3221225472 1000 sampleWindow) =
      [Call.setRange 0 (-1073741824), Call.setValue 1073741824,
        Call.setFormat "%p%   /   1024.0 MB/s"] := by
  refine ⟨by norm_num, by norm_num, by norm_num, ?_⟩
  have hs : MapleSeed.speed ((1073741824 : ℕ) : ℤ) ((1000 : ℕ) : ℤ) =
      Double.finite false (1073741824 : ℕ) :=
    speed_whole 1073741824 1000 1073741824 (by norm_num) (by norm_num) (by norm_num)
      (by norm_num)
  have ht := throughput_whole 1073741824 (by norm_num)
  norm_num at hs ht
  have hl : MapleSeed.throughputLabel 1073741824 1000 = "1024.0 MB/s" := by
    unfold MapleSeed.throughputLabel
    rw [hs, ht, label_finite]
    have : ((1024 : ℚ) * 10) = ((10240 : ℕ) : ℚ) := by norm_num
    rw [this, roundHalfUp_natCast]
    decide
  unfold MapleSeed.updateProgress
  rw [newCalls_call3, hl]
  decide

/-- The progress bar is given the byte counts themselves as long as they fit an `int`. -/
theorem updateProgress_range_of_small (bytesReceived bytesTotal elapsed : ℤ) (w : MapleSeed)
    (h0 : 0 ≤ bytesReceived) (h1 : bytesReceived ≤ bytesTotal) (h2 : bytesTotal < 2 ^ 31) :
    newCalls w (MapleSeed.updateProgress bytesReceived bytesTotal elapsed w) =
      [Call.setRange 0 bytesTotal, Call.setValue bytesReceived,
        Call.setFormat ("%p%   /   " ++ MapleSeed.throughputLabel bytesReceived elapsed)] := by
  have e1 : toInt32 bytesTotal = bytesTotal := by
    unfold toInt32
    norm_num at h2 ⊢
    omega
  have e2 : toInt32 bytesReceived = bytesReceived := by
    unfold toInt32
    norm_num at h2 ⊢
    omega
  unfold MapleSeed.updateProgress
  rw [newCalls_call3, e1, e2]

/-! ## updateListview and menuChangeLibrary -/

theorem updateListview_listWidget (w : MapleSeed) (tb : TitleInfo) :
    (MapleSeed.updateListview w tb).listWidget =
      w.listWidget ++ [{ item := tb, text := tb.formatName }] := by
  unfold MapleSeed.updateListview MapleSeed.call MapleSeed.setCurrentRow
    MapleSeed.itemSelectionChanged
  simp only
  split_ifs <;> first | rfl | (split <;> rfl)

theorem foldl_updateListview_listWidget (tbs : List TitleInfo) (w : MapleSeed) :
    (tbs.foldl MapleSeed.updateListview w).listWidget =
      w.listWidget ++ tbs.map (fun t => { item := t, text := t.formatName }) := by
  induction tbs generalizing w with
  | nil => simp
  | cons t ts ih =>
    rw [List.foldl_cons, ih, updateListview_listWidget]
    simp

theorem updateListview_gameLibrary (w : MapleSeed) (tb : TitleInfo) :
    (MapleSeed.updateListview w tb).gameLibrary = w.gameLibrary ∧
    (MapleSeed.updateListview w tb).baseDirectory = w.baseDirectory := by
  unfold MapleSeed.updateListview MapleSeed.call MapleSeed.setCurrentRow
    MapleSeed.itemSelectionChanged
  simp only
  split_ifs <;> first | exact ⟨rfl, rfl⟩ | (split <;> exact ⟨rfl, rfl⟩)

theorem foldl_updateListview_gameLibrary (tbs : List TitleInfo) (w : MapleSeed) :
    (tbs.foldl MapleSeed.updateListview w).gameLibrary = w.gameLibrary ∧
    (tbs.foldl MapleSeed.updateListview w).baseDirectory = w.baseDirectory := by
  induction tbs generalizing w with
  | nil => simp
  | cons t ts ih =>
    rw [List.foldl_cons]
    obtain ⟨h1, h2⟩ := ih (MapleSeed.updateListview w t)
    obtain ⟨h3, h4⟩ := updateListview_gameLibrary w t
    exact ⟨h1.trans h3, h2.trans h4⟩

/-- C8. Each catalog-changed notification delivered to `updateListview` appends exactly
one entry at the end of the list view, whose text is the format name of the notified
record, and leaves the earlier entries and their order as they were; hence after a
sequence of notifications the texts of the list view are the former texts followed by the
format names in notification order, and on a list view that was empty they are the format
names in notification order. -/
theorem updateListview_appends_in_order (w : MapleSeed) (tb : TitleInfo)
    (tbs : List TitleInfo) :
    (MapleSeed.updateListview w tb).listWidget =
      w.listWidget ++ [{ item := tb, text := tb.formatName }] ∧
    (tbs.foldl MapleSeed.updateListview w).listWidget =
      w.listWidget ++ tbs.map (fun t => { item := t, text := t.formatName }) ∧
    (tbs.foldl MapleSeed.updateListview w).listWidget.map TitleInfoItem.text =
      w.listWidget.map TitleInfoItem.text ++ tbs.map TitleInfo.formatName ∧
    (w.listWidget = [] →
      (tbs.foldl MapleSeed.updateListview w).listWidget.map TitleInfoItem.text =
        tbs.map TitleInfo.formatName) := by
  have h : (tbs.foldl MapleSeed.updateListview w).listWidget.map TitleInfoItem.text =
      w.listWidget.map TitleInfoItem.text ++ tbs.map TitleInfo.formatName := by
    rw [foldl_updateListview_listWidget]
    simp [List.map_append, List.map_map, Function.comp_def]
  refine ⟨updateListview_listWidget w tb, foldl_updateListview_listWidget tbs w, h, ?_⟩
  intro h0
  rw [h, h0]
  rfl

theorem libraryInit_fields (init : GameLibrary → QString → GameLibrary × List TitleInfo)
    (w : MapleSeed) (path : QString) :
    (MapleSeed.libraryInit init w path).listWidget =
      w.listWidget ++
        (init w.gameLibrary path).2.map (fun t => { item := t, text := t.formatName }) ∧
    (MapleSeed.libraryInit init w path).gameLibrary = (init w.gameLibrary path).1 ∧
    (MapleSeed.libraryInit init w path).baseDirectory = w.baseDirectory := by
  unfold MapleSeed.libraryInit
  simp only
  obtain ⟨h1, h2⟩ := foldl_updateListview_gameLibrary
    (init (w.call (Call.init path)).gameLibrary path).2
    { w.call (Call.init path) with
      gameLibrary := (init (w.call (Call.init path)).gameLibrary path).1 }
  exact ⟨by rw [foldl_updateListview_listWidget]; rfl, h1, h2⟩

theorem call_fields (w : MapleSeed) (c : Call) :
    (w.call c).listWidget = w.listWidget ∧ (w.call c).gameLibrary = w.gameLibrary ∧
    (w.call c).baseDirectory = w.baseDirectory :=
  ⟨rfl, rfl, rfl⟩

theorem initializeWindow_fields
    (init : GameLibrary → QString → GameLibrary × List TitleInfo) (load : Bool)
    (configured : QString) (w : MapleSeed) :
    (MapleSeed.initializeWindow init load configured w).listWidget =
      w.listWidget ++
        (init w.gameLibrary configured).2.map (fun t => { item := t, text := t.formatName }) ∧
    (MapleSeed.initializeWindow init load configured w).gameLibrary =
      (init w.gameLibrary configured).1 := by
  unfold MapleSeed.initializeWindow
  simp only
  cases load
  · constructor
    · rw [(call_fields _ _).1, (libraryInit_fields init _ _).1]
      rfl
    · rw [(call_fields _ _).2.1, (libraryInit_fields init _ _).2.1]
      rfl
  · constructor
    · rw [(call_fields _ _).1, (libraryInit_fields init _ _).1]
      rfl
    · rw [(call_fields _ _).2.1, (libraryInit_fields init _ _).2.1]
      rfl

theorem updateListview_calls (v : MapleSeed) (tb : TitleInfo) :
    ∃ l, (MapleSeed.updateListview v tb).calls = v.calls ++ l := by
  unfold MapleSeed.updateListview MapleSeed.call MapleSeed.setCurrentRow
    MapleSeed.itemSelectionChanged
  simp only
  split_ifs
  · exact ⟨_, rfl⟩
  · exact ⟨_, rfl⟩
  · split
    · exact ⟨_, rfl⟩
    · exact ⟨_, List.append_assoc _ _ _⟩
  · exact ⟨_, rfl⟩

theorem foldl_updateListview_calls (tbs : List TitleInfo) (v : MapleSeed) :
    ∃ l, (tbs.foldl MapleSeed.updateListview v).calls = v.calls ++ l := by
  induction tbs generalizing v with
  | nil => exact ⟨[], by simp⟩
  | cons t ts ih =>
    obtain ⟨l1, h1⟩ := updateListview_calls v t
    obtain ⟨l2, h2⟩ := ih (MapleSeed.updateListview v t)
    exact ⟨l1 ++ l2, by rw [List.foldl_cons, h2, h1, List.append_assoc]⟩

theorem libraryInit_calls (init : GameLibrary → QString → GameLibrary × List TitleInfo)
    (v : MapleSeed) (path : QString) :
    ∃ l, (MapleSeed.libraryInit init v path).calls = v.calls ++ (Call.init path :: l) := by
  unfold MapleSeed.libraryInit
  simp only
  obtain ⟨l, hl⟩ := foldl_updateListview_calls
    (init (v.call (Call.init path)).gameLibrary path).2
    { v.call (Call.init path) with
      gameLibrary := (init (v.call (Call.init path)).gameLibrary path).1 }
  refine ⟨l, ?_⟩
  rw [hl]
  simp [MapleSeed.call]

theorem newCalls_menuChangeLibrary
    (init : GameLibrary → QString → GameLibrary × List TitleInfo) (d : QDir) (w : MapleSeed) :
    ∃ rest, (MapleSeed.menuChangeLibrary init (some d) w).calls =
      w.calls ++ (Call.setBaseDirectory d.path :: Call.init d.path :: rest) := by
  obtain ⟨l, hl⟩ := libraryInit_calls init
    { w.call (Call.setBaseDirectory d.path) with
      baseDirectory := d.path, listWidget := [], currentRow := -1 } d.path
  have h2 : ∃ l2, (MapleSeed.menuChangeLibrary init (some d) w).calls =
      (MapleSeed.libraryInit init
        { w.call (Call.setBaseDirectory d.path) with
          baseDirectory := d.path, listWidget := [], currentRow := -1 } d.path).calls ++ l2 := by
    unfold MapleSeed.menuChangeLibrary
    simp only
    split
    · exact ⟨_, rfl⟩
    · exact ⟨_, List.append_assoc _ _ _⟩
  obtain ⟨l2, hl2⟩ := h2
  refine ⟨l ++ l2, ?_⟩
  rw [hl2, hl]
  simp [MapleSeed.call]

/-- C9. For every directory `d` chosen in `menuChangeLibrary`: the configured base
directory becomes `d`; `gameLibrary->init(d)` is called right after that; the list view
afterwards holds exactly the entries notified during `init(d)`, in order, and none from
before; the library is the one `init(d)` leaves; list view and library are those that the
startup function, which runs the same `GameLibrary::init`, produces on an empty list view
when the configured base directory is `d`; and when the dialog is cancelled the window is
left as it was. -/
theorem menuChangeLibrary_rescans
    (init : GameLibrary → QString → GameLibrary × List TitleInfo) (d : QDir)
    (w : MapleSeed) (load : Bool) :
    (MapleSeed.menuChangeLibrary init (some d) w).baseDirectory = d.path ∧
    (∃ rest, (MapleSeed.menuChangeLibrary init (some d) w).calls =
      w.calls ++ (Call.setBaseDirectory d.path :: Call.init d.path :: rest)) ∧
    (MapleSeed.menuChangeLibrary init (some d) w).listWidget =
      (init w.gameLibrary d.path).2.map (fun t => { item := t, text := t.formatName }) ∧
    (MapleSeed.menuChangeLibrary init (some d) w).gameLibrary = (init w.gameLibrary d.path).1 ∧
    (MapleSeed.menuChangeLibrary init (some d) w).listWidget =
      (MapleSeed.initializeWindow init load d.path
        { w with listWidget := [], currentRow := -1 }).listWidget ∧
    (MapleSeed.menuChangeLibrary init (some d) w).gameLibrary =
      (MapleSeed.initializeWindow init load d.path
        { w with listWidget := [], currentRow := -1 }).gameLibrary ∧
    MapleSeed.menuChangeLibrary init none w = w := by
  have hM := libraryInit_fields init
    { w.call (Call.setBaseDirectory d.path) with
      baseDirectory := d.path, listWidget := [], currentRow := -1 } d.path
  have hmenu :
      (MapleSeed.menuChangeLibrary init (some d) w).listWidget =
        (MapleSeed.libraryInit init
          { w.call (Call.setBaseDirectory d.path) with
            baseDirectory := d.path, listWidget := [], currentRow := -1 } d.path).listWidget ∧
      (MapleSeed.menuChangeLibrary init (some d) w).gameLibrary =
        (MapleSeed.libraryInit init
          { w.call (Call.setBaseDirectory d.path) with
            baseDirectory := d.path, listWidget := [], currentRow := -1 } d.path).gameLibrary ∧
      (MapleSeed.menuChangeLibrary init (some d) w).baseDirectory =
        (MapleSeed.libraryInit init
          { w.call (Call.setBaseDirectory d.path) with
            baseDirectory := d.path, listWidget := [], currentRow := -1 } d.path).baseDirectory := by
    unfold MapleSeed.menuChangeLibrary
    simp only
    split <;> exact ⟨rfl, rfl, rfl⟩
  obtain ⟨m1, m2, m3⟩ := hmenu
  obtain ⟨i1, i2⟩ := initializeWindow_fields init load d.path
    { w with listWidget := [], currentRow := -1 }
  refine ⟨by rw [m3, hM.2.2], newCalls_menuChangeLibrary init d w,
    by rw [m1, hM.1]; rfl, by rw [m2, hM.2.1]; rfl, ?_, ?_, rfl⟩
  · rw [m1, hM.1, i1]
    rfl
  · rw [m2, hM.2.1, i2]
    rfl

/-! ## A progress event with an elapsed time of zero -/

theorem ofInt_zero : Double.ofInt 0 = Double.finite false 0 := by
  have := ofInt_natCast 0 (by norm_num)
  simpa using this

theorem speed_zero_zero : MapleSeed.speed 0 0 = Double.nan := by
  have r0 : Double.round false 0 = Double.finite false 0 := by
    have := round_of_le false (x := 0) le_rfl 0 (by norm_num) (by norm_num)
    rw [this, rndMag_zero]
  unfold MapleSeed.speed
  rw [ofInt_zero]
  simp [Double.mul, Double.div, r0]

theorem speed_4096_zero : MapleSeed.speed 4096 0 = Double.inf false := by
  have z1 : Double.ofInt 4096 = Double.finite false 4096 := by
    have := ofInt_natCast 4096 (by norm_num)
    simpa using this
  have r1 : Double.round false (4096 * 1000) = Double.finite false 4096000 := by
    have h := round_of_le false (x := ((4096000 : ℕ) : ℚ)) (by positivity) 53 (by norm_num)
      (by norm_num)
    rw [rndMag_natCast 4096000 (by norm_num)] at h
    norm_num at h ⊢
    exact h
  have m1 : Double.mul (Double.finite false 4096) (Double.finite false 1000) =
      Double.finite false 4096000 := by
    show Double.round (false != false) (4096 * 1000) = _
    exact r1
  have d1 : Double.div (Double.finite false 4096000) (Double.finite false 0) =
      Double.inf false := by
    have hne : ¬ ((4096000 : ℚ) = 0) := by norm_num
    show (if (0 : ℚ) = 0 then
        (if (4096000 : ℚ) = 0 then Double.nan else Double.inf (false != false))
      else Double.round (false != false) (4096000 / 0)) = _
    rw [if_pos rfl, if_neg hne]
    rfl
  unfold MapleSeed.speed
  rw [ofInt_zero, z1, m1, d1]

theorem throughput_nan : MapleSeed.throughput Double.nan = (Double.nan, "MB/s") := by
  unfold MapleSeed.throughput
  rw [ofInt_1024, ofInt_1048576]
  rfl

theorem throughput_inf : MapleSeed.throughput (Double.inf false) = (Double.inf false, "MB/s") := by
  unfold MapleSeed.throughput
  rw [ofInt_1024, ofInt_1048576]
  rfl

/-- C10, at the failing input. A progress event delivered in the millisecond the transfer
started (`elapsed = 0`) divides by zero: with no byte received the speed is a NaN, with
4096 bytes received it is infinite, and the label reads "nan MB/s" or "inf MB/s". -/
theorem updateProgress_divides_by_zero :
    MapleSeed.speed 0 0 = Double.nan ∧
    MapleSeed.throughputLabel 0 0 = "nan MB/s" ∧
    MapleSeed.speed 4096 0 = Double.inf false ∧
    MapleSeed.throughputLabel 4096 0 = "inf MB/s" := by
  refine ⟨speed_zero_zero, ?_, speed_4096_zero, ?_⟩
  · unfold MapleSeed.throughputLabel
    rw [speed_zero_zero, throughput_nan]
    decide
  · unfold MapleSeed.throughputLabel
    rw [speed_4096_zero, throughput_inf]
    decide

end MapleTree
